import Mathlib

/-!
Verification development for the retail upcoming/completed revenue
reconciliation script (`upcoming_revenue.py`).

The script's pure core is shallowly embedded here:
* cell values are a tagged variant `Cell` (Python `None`, numbers, text,
  calendar dates); Python floats are modelled as exact rationals `ℚ`, and
  Python `round(x, 2)` as half-to-even rounding on rationals;
* fallible Python code (functions that can raise) returns `Except`/`Option`,
  with `Option.none` / `Except.error` standing for a raised exception;
* dictionaries are association lists in insertion order, matching Python
  dict semantics (first-key lookup, in-place value update, append on new
  key);
* the destination worksheet is a `Sheet`: a bound `maxRow` plus a total
  cell-assignment function, mutated by explicit functional update.
-/

namespace RetailRev

/-- A calendar date, as Python's `datetime.date` triple. -/
structure PDate where
  y : Nat
  m : Nat
  d : Nat
deriving DecidableEq, Repr

/-- Python `date` comparison (lexicographic on year, month, day): `a <= b`. -/
def PDate.ble (a b : PDate) : Bool :=
  decide (a.y < b.y ∨ (a.y = b.y ∧ (a.m < b.m ∨ (a.m = b.m ∧ a.d ≤ b.d))))

/-- A spreadsheet / attachment cell value: Python `None`, a number
(`int`/`float`, modelled as `ℚ`), text, or a native date
(`datetime.date`, and `datetime.datetime` via its `.date()`). -/
inductive Cell where
  | none : Cell
  | num : ℚ → Cell
  | text : String → Cell
  | date : PDate → Cell
deriving DecidableEq, Repr

/-- Left-pad a decimal rendering to two digits. -/
def pad2 (n : Nat) : String :=
  if n < 10 then "0" ++ toString n else toString n

/-- Left-pad a decimal rendering to four digits. -/
def pad4 (n : Nat) : String :=
  if n < 10 then "000" ++ toString n
  else if n < 100 then "00" ++ toString n
  else if n < 1000 then "0" ++ toString n
  else toString n

/-- Python `str()` on a cell value.  `str(None) = "None"`; dates render as
ISO `YYYY-MM-DD`.  For numbers Python renders the float/int repr; the
rendering of non-integral rationals is approximated, which is sound for
this development because every use of `str` on a numeric cell feeds a
parser that rejects any all-digit rendering (unit names and date formats). -/
def pyStr : Cell → String
  | Cell.none => "None"
  | Cell.num q => if q.den = 1 then toString q.num ++ ".0" else toString q
  | Cell.text s => s
  | Cell.date dt => pad4 dt.y ++ "-" ++ pad2 dt.m ++ "-" ++ pad2 dt.d

/-- Python `str.strip`'s whitespace test, for the ASCII data the pipeline
handles. -/
def isPySpace (c : Char) : Bool :=
  c == ' ' || c == '\t' || c == '\n' || c == '\r' || c == '\x0b' || c == '\x0c'

/-- Python `str.strip()` on the character list. -/
def trimChars (cs : List Char) : List Char :=
  ((cs.dropWhile isPySpace).reverse.dropWhile isPySpace).reverse

/-- Python `str.lower()` on one character (ASCII, the pipeline's data). -/
def lowerChar (c : Char) : Char :=
  if 'A' ≤ c ∧ c ≤ 'Z' then Char.ofNat (c.toNat + 32) else c

/-- Python `s.strip().lower()`, the normalization the source applies to
header names and business-unit cells. -/
def pyNorm (s : String) : String :=
  String.mk ((trimChars s.data).map lowerChar)

/-- The decimal value of a digit string (most significant first). -/
def digitsVal (cs : List Char) : Nat :=
  cs.foldl (fun a c => a * 10 + (c.toNat - 48)) 0

/-- `re.sub(r"[^0-9.\-]", "", s)`: keep only digits, `.` and `-`. -/
def stripMoney (s : String) : List Char :=
  s.data.filter (fun c => c.isDigit || c == '.' || c == '-')

/-- Whether an unsigned character run is accepted by Python `float()`:
at least one digit, only digits and dots, at most one dot. -/
def floatCore (cs : List Char) : Bool :=
  cs.any (·.isDigit) && cs.all (fun c => c.isDigit || c == '.') &&
    decide (cs.count '.' ≤ 1)

/-- Whether `float()` accepts a string made only of digits, `.` and `-`:
an optional leading minus sign, then a `floatCore` run. -/
def validFloat : List Char → Bool
  | [] => false
  | c :: t => if c == '-' then floatCore t else floatCore (c :: t)

/-- Numeric value of an unsigned `floatCore`-valid run. -/
def coreVal (cs : List Char) : ℚ :=
  match cs.splitOn '.' with
  | [a] => (digitsVal a : ℚ)
  | [a, b] => (digitsVal a : ℚ) + mkRat (digitsVal b) (10 ^ b.length)
  | _ => 0

/-- Numeric value of a `validFloat` run (handling the optional sign). -/
def floatVal : List Char → ℚ
  | [] => 0
  | c :: t => if c == '-' then -(coreVal t) else coreVal (c :: t)

/-- `parse_money` from the source.  `None ↦ 0.0`; native numbers pass
through; any other value is `str`-ed, stripped to digits/dot/minus, and
fed to `float()`.  `Option.none` models the `ValueError` that `float()`
raises when the stripped remainder is non-empty but not a float literal. -/
def parse_money : Cell → Option ℚ
  | Cell.none => some 0
  | Cell.num q => some q
  | v =>
    let cs := stripMoney (pyStr v)
    if cs = [] then some 0
    else if validFloat cs then some (floatVal cs) else Option.none

/-- Leap-year predicate, as Python's `calendar.isleap` / `datetime`. -/
def isLeap (y : Nat) : Bool :=
  y % 4 == 0 && (y % 100 != 0 || y % 400 == 0)

/-- Days in a month, as validated by `datetime.date`. -/
def daysInMonth (y m : Nat) : Nat :=
  if m = 2 then (if isLeap y then 29 else 28)
  else if m = 4 ∨ m = 6 ∨ m = 9 ∨ m = 11 then 30
  else 31

/-- `datetime.date(y, m, d)`: `Option.none` models the `ValueError` on an
out-of-range year, month or day. -/
def mkValidDate (y m d : Nat) : Option PDate :=
  if 1 ≤ y ∧ y ≤ 9999 ∧ 1 ≤ m ∧ m ≤ 12 ∧ 1 ≤ d ∧ d ≤ daysInMonth y m then
    some ⟨y, m, d⟩
  else Option.none

/-- A 1-or-2 digit field with value in `1..hi` (strptime `%m` / `%d`). -/
def parseField2 (s : String) (hi : Nat) : Option Nat :=
  if s.data ≠ [] ∧ s.data.length ≤ 2 ∧ s.data.all Char.isDigit then
    let v := digitsVal s.data
    if 1 ≤ v ∧ v ≤ hi then some v else Option.none
  else Option.none

/-- An exactly-4-digit year field (strptime `%Y`). -/
def parseField4 (s : String) : Option Nat :=
  if s.data.length = 4 ∧ s.data.all Char.isDigit then some (digitsVal s.data)
  else Option.none

/-- An exactly-2-digit year field (strptime `%y`): `00..68 ↦ 2000..2068`,
`69..99 ↦ 1969..1999`. -/
def parseField2y (s : String) : Option Nat :=
  if s.data.length = 2 ∧ s.data.all Char.isDigit then
    let v := digitsVal s.data
    some (if v < 69 then 2000 + v else 1900 + v)
  else Option.none

/-- `datetime.strptime(s, "%m/%d/%Y")` (or `%y`), restricted to `.date()`. -/
def parseMDY (s : String) (fourDigitYear : Bool) : Option PDate :=
  match s.splitOn "/" with
  | [ms, ds, ys] =>
    match parseField2 ms 12, parseField2 ds 31,
        (if fourDigitYear then parseField4 ys else parseField2y ys) with
    | some m, some d, some y => mkValidDate y m d
    | _, _, _ => Option.none
  | _ => Option.none

/-- `datetime.strptime(s, "%Y-%m-%d")` / `"%Y/%m/%d"`, via the separator. -/
def parseYMD (s : String) (sep : String) : Option PDate :=
  match s.splitOn sep with
  | [ys, ms, ds] =>
    match parseField4 ys, parseField2 ms 12, parseField2 ds 31 with
    | some y, some m, some d => mkValidDate y m d
    | _, _, _ => Option.none
  | _ => Option.none

/-- `datetime.fromisoformat(s).date()` modelled for the plain calendar-date
form `YYYY-MM-DD` (two-digit month and day), the only ISO form the
pipeline's data can reach after the explicit strptime formats have failed. -/
def parseISO (s : String) : Option PDate :=
  match s.splitOn "-" with
  | [ys, ms, ds] =>
    if ms.data.length = 2 ∧ ds.data.length = 2 then
      match parseField4 ys, parseField2 ms 12, parseField2 ds 31 with
      | some y, some m, some d => mkValidDate y m d
      | _, _, _ => Option.none
    else Option.none
  | _ => Option.none

/-- `try_parse_any_date` from the source: native dates pass through; text is
stripped and tried against `%m/%d/%Y`, `%m/%d/%y`, `%Y-%m-%d`, `%Y/%m/%d`,
then an ISO parse; total failure yields `Option.none` (callers skip). -/
def try_parse_any_date (v : Cell) : Option PDate :=
  match v with
  | Cell.date dt => some dt
  | _ =>
    let s := String.mk (trimChars (pyStr v).data)
    if s = "" then Option.none
    else
      match parseMDY s true with
      | some dt => some dt
      | Option.none =>
        match parseMDY s false with
        | some dt => some dt
        | Option.none =>
          match parseYMD s "-" with
          | some dt => some dt
          | Option.none =>
            match parseYMD s "/" with
            | some dt => some dt
            | Option.none => parseISO s

/-- Python `round(x, 2)` modelled on exact rationals: round `x*100` half to
even, divide by 100. -/
def round2 (q : ℚ) : ℚ :=
  let x := q * 100
  let n := ⌊x⌋
  let f := x - (n : ℚ)
  let k : ℤ :=
    if f < 1/2 then n
    else if 1/2 < f then n + 1
    else if n % 2 = 0 then n else n + 1
  (k : ℚ) / 100

/-- Association list in insertion order: the model of a Python `dict`. -/
abbrev AList (α β : Type) := List (α × β)

/-- Dict lookup: value at the first matching key. -/
def alookup {α β : Type} [DecidableEq α] : AList α β → α → Option β
  | [], _ => Option.none
  | (k, v) :: t, k' => if k' = k then some v else alookup t k'

/-- Dict assignment `m[k] = v`: update in place, else append. -/
def alistSet {α β : Type} [DecidableEq α] : AList α β → α → β → AList α β
  | [], k, v => [(k, v)]
  | (k', v') :: t, k, v =>
    if k' = k then (k', v) :: t else (k', v') :: alistSet t k v

/-- Dict accumulation `m[k] = m.get(k, 0.0) + v`. -/
def alistAdd {α : Type} [DecidableEq α] : AList α ℚ → α → ℚ → AList α ℚ
  | [], k, v => [(k, v)]
  | (k', v') :: t, k, v =>
    if k' = k then (k', v' + v) :: t else (k', v') :: alistAdd t k v

/-- In-place update of the value stored under an existing key. -/
def alistModify {α β : Type} [DecidableEq α] : AList α β → α → (β → β) → AList α β
  | [], _, _ => []
  | (k', v') :: t, k, f =>
    if k' = k then (k', f v') :: t else (k', v') :: alistModify t k f

/-- The three destination-sheet column positions of one business unit. -/
structure BUCols where
  date_col : Nat
  completed_col : Nat
  scheduled_col : Nat
deriving DecidableEq, Repr

/-- `BU_MAP` from the source: the five configured business units with their
1-based sheet columns, in insertion order. -/
def BU_MAP : AList String BUCols :=
  [("arlington",   ⟨9,  11, 12⟩),
   ("carrollton",  ⟨16, 18, 19⟩),
   ("colleyville", ⟨23, 25, 26⟩),
   ("dallas",      ⟨30, 32, 33⟩),
   ("denton",      ⟨37, 39, 40⟩)]

/-- The configured unit names, in configuration order. -/
def unitsList : List String := BU_MAP.map Prod.fst

/-- Base sheet columns (1-based), from the source. -/
def COL_DATE : Nat := 2

/-- Completed-revenue base column. -/
def COL_COMPLETED : Nat := 4

/-- Scheduled-revenue base column. -/
def COL_SCHEDULED : Nat := 5

/-- Python substring test `needle in hay` (for non-empty `needle`). -/
def strContains (hay needle : String) : Bool :=
  decide (1 < (hay.splitOn needle).length)

/-- `find_col_idx` from the source: normalize each header cell to trimmed
lowercase; first pass returns the first exact match against the candidate
names, second pass the first header cell containing any candidate. -/
def findColIdx (header : List Cell) (targets : List String) : Option Nat :=
  let h := header.map (fun x => pyNorm (pyStr x))
  match h.findIdx? (fun name => targets.contains name) with
  | some i => some i
  | Option.none => h.findIdx? (fun name => targets.any (fun t => strContains name t))

/-- A separator character of the filename date triplet: `.`, `-` or `_`. -/
def isTripSep (c : Char) : Bool := c == '.' || c == '-' || c == '_'

/-- Take exactly `n` leading digits: their value and the rest. -/
def takeDigits (cs : List Char) (n : Nat) : Option (Nat × List Char) :=
  let pre := cs.take n
  if pre.length = n ∧ pre.all Char.isDigit then some (digitsVal pre, cs.drop n)
  else Option.none

/-- Consume one triplet-separator character. -/
def stepSep : List Char → Option (List Char)
  | [] => Option.none
  | c :: t => if isTripSep c then some t else Option.none

/-- Regex-quantifier backtracking: try each group length in `lens` (longest
first for a greedy `{1,n}`), keeping the first length whose continuation
succeeds. -/
def tryLens (cs : List Char) (lens : List Nat)
    (k : Nat → List Char → Option (Nat × Nat × Nat)) : Option (Nat × Nat × Nat) :=
  match lens with
  | [] => Option.none
  | n :: rest =>
    match takeDigits cs n with
    | some (v, cs') =>
      match k v cs' with
      | some r => some r
      | Option.none => tryLens cs rest k
    | Option.none => tryLens cs rest k

/-- Match `(\d{1,4})[._-](\d{1,2})[._-](\d{1,4})` anchored at the start of
`cs`, with the greedy backtracking order of `re`. -/
def matchTripletAt (cs : List Char) : Option (Nat × Nat × Nat) :=
  tryLens cs [4, 3, 2, 1] (fun a cs1 =>
    match stepSep cs1 with
    | Option.none => Option.none
    | some cs2 =>
      tryLens cs2 [2, 1] (fun b cs3 =>
        match stepSep cs3 with
        | Option.none => Option.none
        | some cs4 =>
          tryLens cs4 [4, 3, 2, 1] (fun c _ => some (a, b, c))))

/-- `re.search`: the leftmost starting position wins. -/
def searchTriplet : List Char → Option (Nat × Nat × Nat)
  | [] => matchTripletAt []
  | c :: t =>
    match matchTripletAt (c :: t) with
    | some r => some r
    | Option.none => searchTriplet t

/-- The source's `re.search(r"(\d{1,4})[._-](\d{1,2})[._-](\d{1,4})", fname)`,
returning the three numeric group values. -/
def findTriplet (fname : String) : Option (Nat × Nat × Nat) :=
  searchTriplet fname.data

/-- Failure modes of `extract_date_from_filename` (all `ValueError` in
Python, with distinct messages). -/
inductive ExtractErr where
  | missingFilename : ExtractErr
  | noTriplet : ExtractErr
  | invalidDate : ExtractErr
deriving DecidableEq, Repr

/-- The year/month/day disambiguation of the source: first group over 31
means `YYYY-MM-DD`; otherwise `MM-DD-YY(YY)` with two-digit years shifted
by 2000; then `datetime.date` validation. -/
def interpTriplet (a b c : Nat) : Except ExtractErr PDate :=
  let ymd : Nat × Nat × Nat :=
    if 31 < a then (a, b, c)
    else (if c < 100 then 2000 + c else c, a, b)
  match mkValidDate ymd.1 ymd.2.1 ymd.2.2 with
  | some dt => Except.ok dt
  | Option.none => Except.error ExtractErr.invalidDate

/-- `extract_date_from_filename` from the source. -/
def extract_date_from_filename (fname : String) : Except ExtractErr PDate :=
  if fname = "" then Except.error ExtractErr.missingFilename
  else
    match findTriplet fname with
    | Option.none => Except.error ExtractErr.noTriplet
    | some (a, b, c) => interpTriplet a b c

/-- Failure modes of the aggregators.  `moneyError` is the uncaught
`ValueError` that `parse_money` raises on a stripped-but-unparseable
amount. -/
inductive AggErr where
  | emptyAttachment : AggErr
  | missingColumn : AggErr
  | noValidDates : AggErr
  | moneyError : AggErr
deriving DecidableEq, Repr

/-- The trimmed-lowercase business-unit key of a row at column `bc`. -/
def buNorm (bc : Nat) (r : List Cell) : String :=
  pyNorm (pyStr (r.getD bc Cell.none))

/-- State of the upcoming scan: per-unit per-date sums plus the dates seen. -/
structure UpSt where
  totals : AList String (AList PDate ℚ)
  seen : List PDate

/-- One row of the upcoming scan: skip short rows, rows with an
unconfigured unit and rows with an unparseable date; accumulate the
`parse_money` amount (whose `ValueError` propagates). -/
def upStep (bc dc sc : Nat) (st : UpSt) (r : List Cell) : Except AggErr UpSt :=
  if r.length ≤ max bc (max dc sc) then Except.ok st
  else
    let bu := buNorm bc r
    if (st.totals.map Prod.fst).contains bu = false then Except.ok st
    else
      match try_parse_any_date (r.getD dc Cell.none) with
      | Option.none => Except.ok st
      | some d =>
        match parse_money (r.getD sc Cell.none) with
        | Option.none => Except.error AggErr.moneyError
        | some amt =>
          Except.ok ⟨alistModify st.totals bu (fun m => alistAdd m d amt),
            st.seen ++ [d]⟩

/-- The body loop of the upcoming scan. -/
def upFold (bc dc sc : Nat) : List (List Cell) → UpSt → Except AggErr UpSt
  | [], st => Except.ok st
  | r :: t, st =>
    match upStep bc dc sc st r with
    | Except.error e => Except.error e
    | Except.ok st' => upFold bc dc sc t st'

/-- Python `min` over a non-empty list (first element as seed). -/
def listMinD : PDate → List PDate → PDate
  | a, [] => a
  | a, d :: t => listMinD (if PDate.ble a d then a else d) t

/-- `subtotal_by_date_from_rows_upcoming` from the source: resolve the
business-unit / next-appt-date / subtotal columns, scan the body rows,
return `(min date seen, per-unit per-date sums rounded to cents)`. -/
def subtotal_by_date_from_rows_upcoming (rows : List (List Cell)) :
    Except AggErr (PDate × AList String (AList PDate ℚ)) :=
  if rows.length < 2 then Except.error AggErr.emptyAttachment
  else
    match findColIdx (rows.headD []) ["business unit"],
        findColIdx (rows.headD []) ["next appt start date"],
        findColIdx (rows.headD []) ["jobs subtotal", "subtotal"] with
    | some bc, some dc, some sc =>
      match upFold bc dc sc rows.tail ⟨BU_MAP.map (fun p => (p.1, [])), []⟩ with
      | Except.error e => Except.error e
      | Except.ok st =>
        match st.seen with
        | [] => Except.error AggErr.noValidDates
        | d0 :: rest =>
          Except.ok (listMinD d0 rest,
            st.totals.map (fun p => (p.1, p.2.map (fun q => (q.1, round2 q.2)))))
    | _, _, _ => Except.error AggErr.missingColumn

/-- The source's blank test `v in (None, "", " ")`. -/
def blankCell (v : Cell) : Bool :=
  v == Cell.none || v == Cell.text "" || v == Cell.text " "

/-- The body loop of the sum-all completed scan: skip short rows and blank
amounts; add every other amount to the global sum and, when the unit is
configured, to that unit's sum. -/
def cFold (bc sc : Nat) :
    List (List Cell) → ℚ → AList String ℚ → Except AggErr (ℚ × AList String ℚ)
  | [], g, b => Except.ok (g, b)
  | r :: t, g, b =>
    if r.length ≤ max bc sc then cFold bc sc t g b
    else
      let v := r.getD sc Cell.none
      if blankCell v then cFold bc sc t g b
      else
        match parse_money v with
        | Option.none => Except.error AggErr.moneyError
        | some amt =>
          let bu := buNorm bc r
          cFold bc sc t (g + amt)
            (if (b.map Prod.fst).contains bu then alistModify b bu (· + amt) else b)

/-- `completed_values_from_rows_by_bu_sum_jobs_subtotal` from the source
(the sum-all policy): global and per-unit sums of all non-blank subtotals,
rounded to cents. -/
def completed_values_from_rows_by_bu_sum_jobs_subtotal (rows : List (List Cell)) :
    Except AggErr (ℚ × AList String ℚ) :=
  if rows.length < 2 then Except.error AggErr.emptyAttachment
  else
    match findColIdx (rows.headD []) ["business unit"],
        findColIdx (rows.headD []) ["jobs subtotal", "subtotal"] with
    | some bc, some sc =>
      match cFold bc sc rows.tail 0 (BU_MAP.map (fun p => (p.1, 0))) with
      | Except.error e => Except.error e
      | Except.ok (g, b) =>
        Except.ok (round2 g, b.map (fun p => (p.1, round2 p.2)))
    | _, _ => Except.error AggErr.missingColumn

/-- State of the last-non-blank scan: the global value once seen, and the
units resolved so far (in resolution order). -/
structure LnbSt where
  g : Option ℚ
  res : AList String ℚ

/-- Modelled from the spec: one backward-scan loop of the last-non-blank
completed policy (present in the repository's earlier connector variant,
not under `src/`).  The argument list is the body in reverse; scanning
stops once every configured unit is resolved; the first non-blank amount
fixes the global value; the first non-blank amount per unit resolves that
unit. -/
def lnbGo (bc sc : Nat) : List (List Cell) → LnbSt → Except AggErr LnbSt
  | [], st => Except.ok st
  | r :: t, st =>
    if unitsList.all (fun u => (st.res.map Prod.fst).contains u) then Except.ok st
    else if r.length ≤ max bc sc then lnbGo bc sc t st
    else
      let v := r.getD sc Cell.none
      if blankCell v then lnbGo bc sc t st
      else
        match parse_money v with
        | Option.none => Except.error AggErr.moneyError
        | some amt =>
          let bu := buNorm bc r
          lnbGo bc sc t
            ⟨some (st.g.getD amt),
             if unitsList.contains bu && !(st.res.map Prod.fst).contains bu then
               st.res ++ [(bu, amt)]
             else st.res⟩

/-- Modelled from the spec: the last-non-blank completed-aggregation policy
of §4.6 (the repository's earlier connector variant, not under `src/`).
Header handling, column resolution, the row-length guard and the blank
test are those of the sum-all variant in the source; the scan runs from
the last body row backward; units never resolved default to `0.0`; every
returned scalar is rounded to cents. -/
def completed_values_last_non_blank (rows : List (List Cell)) :
    Except AggErr (ℚ × AList String ℚ) :=
  if rows.length < 2 then Except.error AggErr.emptyAttachment
  else
    match findColIdx (rows.headD []) ["business unit"],
        findColIdx (rows.headD []) ["jobs subtotal", "subtotal"] with
    | some bc, some sc =>
      match lnbGo bc sc rows.tail.reverse ⟨Option.none, []⟩ with
      | Except.error e => Except.error e
      | Except.ok st =>
        Except.ok (round2 (st.g.getD 0),
          unitsList.map (fun u => (u, round2 ((alookup st.res u).getD 0))))
    | _, _ => Except.error AggErr.missingColumn

/-- One planned cell write `(row, column, value)`.  Clearing writes the
empty string, as the source does. -/
structure Write where
  row : Nat
  col : Nat
  val : Cell
deriving DecidableEq, Repr

/-- A worksheet: its `ws.max_row` bound and a total assignment of cell
values (1-based row and column). -/
@[ext]
structure Sheet where
  maxRow : Nat
  cells : Nat → Nat → Cell

/-- `ws.cell(row=r, column=c).value = v`. -/
def setCell (s : Sheet) (r c : Nat) (v : Cell) : Sheet :=
  ⟨s.maxRow, fun r' c' => if r' = r ∧ c' = c then v else s.cells r' c'⟩

/-- Apply a batch of cell writes in order. -/
def applyWrites (s : Sheet) (ws : List Write) : Sheet :=
  ws.foldl (fun acc w => setCell acc w.row w.col w.val) s

/-- One row of the date-index scan: record the row under its parsed date,
overwriting; skip cells that do not normalize to a date. -/
def idxStep (s : Sheet) (c : Nat) (m : AList PDate Nat) (r : Nat) : AList PDate Nat :=
  match try_parse_any_date (s.cells r c) with
  | some d => alistSet m d r
  | Option.none => m

/-- `build_sheet_date_row_map_xl` from the source: scan rows `2..max_row`
of one date column; every cell that normalizes to a date records its row
under that date, overwriting earlier rows. -/
def build_sheet_date_row_map_xl (s : Sheet) (date_col : Nat) : AList PDate Nat :=
  (List.range' 2 (s.maxRow - 1)).foldl (idxStep s date_col) []

/-- The global-totals derivation inside `apply_upcoming_to_workbook`: sum
the per-unit totals per date across all units, then round to cents. -/
def globalTotalsOf (totals : AList String (AList PDate ℚ)) : AList PDate ℚ :=
  (totals.foldl (fun gt p => p.2.foldl (fun g q => alistAdd g q.1 q.2) gt) []).map
    (fun p => (p.1, round2 p.2))

/-- One scheduled-revenue planning loop: for each `(date, total)` with the
date strictly after the anchor, look the date up in the given index and
emit a write to the scheduled column when found, else skip silently. -/
def schedWrites (anchor : PDate) (idx : AList PDate Nat) (col : Nat)
    (dmap : AList PDate ℚ) : List Write :=
  dmap.filterMap (fun p =>
    if PDate.ble p.1 anchor then Option.none
    else
      match alookup idx p.1 with
      | some r => some ⟨r, col, Cell.num p.2⟩
      | Option.none => Option.none)

/-- The write batch of `apply_upcoming_to_workbook`: the source builds the
global and per-unit date indexes up front, then performs exactly these
writes in this order.  The source indexes `BU_MAP[bu]` directly (a
`KeyError` on an unconfigured key, unreachable because the aggregator's
key set is `BU_MAP`'s); the unconfigured case here emits nothing. -/
def upcomingWrites (s : Sheet) (anchor : PDate)
    (totals : AList String (AList PDate ℚ)) : List Write :=
  let base := build_sheet_date_row_map_xl s COL_DATE
  schedWrites anchor base COL_SCHEDULED (globalTotalsOf totals)
  ++ totals.flatMap (fun p =>
      match alookup BU_MAP p.1 with
      | some cols =>
        schedWrites anchor (build_sheet_date_row_map_xl s cols.date_col)
          cols.scheduled_col p.2
      | Option.none => [])

/-- `apply_upcoming_to_workbook` from the source, as index-build then
write burst. -/
def apply_upcoming_to_workbook (s : Sheet) (anchor : PDate)
    (totals : AList String (AList PDate ℚ)) : Sheet :=
  applyWrites s (upcomingWrites s anchor totals)

/-- The pair of writes of one completed row group: set the completed cell,
clear the scheduled cell. -/
def pairWrites : Option Nat → Nat → Nat → ℚ → List Write
  | some r, ccol, scol, v => [⟨r, ccol, Cell.num v⟩, ⟨r, scol, Cell.text ""⟩]
  | Option.none, _, _, _ => []

/-- The write batch of `apply_completed_to_workbook`: the global pair at
the base index's row for `file_date` when found, then each unit's pair at
its own index's row when found (value defaulting to `0.0`).  The source
rebuilds each unit's index after the preceding writes; those writes touch
only completed/scheduled columns, disjoint from every date column, so each
index equals the one built from the input sheet (proved below). -/
def completedWrites (s : Sheet) (fd : PDate) (g : ℚ)
    (bus : AList String ℚ) : List Write :=
  pairWrites (alookup (build_sheet_date_row_map_xl s COL_DATE) fd)
    COL_COMPLETED COL_SCHEDULED g
  ++ BU_MAP.flatMap (fun p =>
      pairWrites (alookup (build_sheet_date_row_map_xl s p.2.date_col) fd)
        p.2.completed_col p.2.scheduled_col ((alookup bus p.1).getD 0))

/-- `apply_completed_to_workbook` from the source, sequentially: write the
global pair, then handle each configured unit in order, rebuilding that
unit's date index from the current sheet state as the source does. -/
def apply_completed_to_workbook (s : Sheet) (fd : PDate) (g : ℚ)
    (bus : AList String ℚ) : Sheet :=
  let s1 :=
    match alookup (build_sheet_date_row_map_xl s COL_DATE) fd with
    | some r => setCell (setCell s r COL_COMPLETED (Cell.num g)) r COL_SCHEDULED (Cell.text "")
    | Option.none => s
  BU_MAP.foldl
    (fun acc p =>
      match alookup (build_sheet_date_row_map_xl acc p.2.date_col) fd with
      | some r =>
        setCell (setCell acc r p.2.completed_col (Cell.num ((alookup bus p.1).getD 0)))
          r p.2.scheduled_col (Cell.text "")
      | Option.none => acc)
    s1

/-- The map of one date's contributions within a per-unit totals list. -/
def sumKey (l : List (PDate × ℚ)) (d : PDate) : ℚ :=
  ((l.filter (fun q => decide (q.1 = d))).map Prod.snd).sum

/-- The value of the last write in a batch aimed at a given cell. -/
def lastWriteVal (ws : List Write) (r c : Nat) : Option Cell :=
  ws.foldl (fun acc w => if r = w.row ∧ c = w.col then some w.val else acc) Option.none

/-- One unit's completed-row step of the source loop. -/
def cwStep (fd : PDate) (bus : AList String ℚ) (acc : Sheet)
    (p : String × BUCols) : Sheet :=
  match alookup (build_sheet_date_row_map_xl acc p.2.date_col) fd with
  | some r =>
    setCell (setCell acc r p.2.completed_col (Cell.num ((alookup bus p.1).getD 0)))
      r p.2.scheduled_col (Cell.text "")
  | Option.none => acc

/-- The date a row contributes to the upcoming scan, if any: the row must be
long enough, carry a configured business unit, and have a parseable date
(in that guard order, as the source loop). -/
def upDateOf (bc dc sc : Nat) (r : List Cell) : Option PDate :=
  if r.length ≤ max bc (max dc sc) then Option.none
  else if unitsList.contains (buNorm bc r) = false then Option.none
  else try_parse_any_date (r.getD dc Cell.none)

/-- Whether the last-non-blank scan examines a row: long enough and with a
non-blank amount cell. -/
def lnbRelevant (bc sc : Nat) (r : List Cell) : Bool :=
  decide (max bc sc < r.length) && !blankCell (r.getD sc Cell.none)

/-- The normalized amount of a row's subtotal cell (0 when unparseable). -/
def lnbAmt (sc : Nat) (r : List Cell) : ℚ :=
  (parse_money (r.getD sc Cell.none)).getD 0

/-- A numeric triplet occurrence inside a character list: three digit groups
of lengths `1..4`, `1..mid`, `1..4` separated by single separator
characters, with the given numeric values. -/
def TripletSplit (mid : Nat) (cs : List Char) (a b c : Nat) : Prop :=
  ∃ (p g1 g2 g3 rest : List Char) (s1 s2 : Char),
    cs = p ++ g1 ++ s1 :: (g2 ++ s2 :: (g3 ++ rest)) ∧
    g1 ≠ [] ∧ g1.length ≤ 4 ∧ g1.all Char.isDigit = true ∧ isTripSep s1 = true ∧
    g2 ≠ [] ∧ g2.length ≤ mid ∧ g2.all Char.isDigit = true ∧ isTripSep s2 = true ∧
    g3 ≠ [] ∧ g3.length ≤ 4 ∧ g3.all Char.isDigit = true ∧
    digitsVal g1 = a ∧ digitsVal g2 = b ∧ digitsVal g3 = c

/-- The triplet search as the specification's claim words it: three numeric
groups of length 1–4 each (the source regex restricts the middle group to
1–2 digits); written only to compare against `findTriplet`. -/
def matchTripletAtClaimed (cs : List Char) : Option (Nat × Nat × Nat) :=
  tryLens cs [4, 3, 2, 1] (fun a cs1 =>
    match stepSep cs1 with
    | Option.none => Option.none
    | some cs2 =>
      tryLens cs2 [4, 3, 2, 1] (fun b cs3 =>
        match stepSep cs3 with
        | Option.none => Option.none
        | some cs4 =>
          tryLens cs4 [4, 3, 2, 1] (fun c _ => some (a, b, c))))

/-- Leftmost search for the claim's triplet shape. -/
def searchTripletClaimed : List Char → Option (Nat × Nat × Nat)
  | [] => matchTripletAtClaimed []
  | c :: t =>
    match matchTripletAtClaimed (c :: t) with
    | some r => some r
    | Option.none => searchTripletClaimed t

/-- The claim's triplet finder over a filename. -/
def findTripletClaimed (fname : String) : Option (Nat × Nat × Nat) :=
  searchTripletClaimed fname.data

/-- The anchor date as the claim words it: the minimum date parsed from the
date column over all body rows of the extract, with no business-unit or
row-length filtering; written only to compare against the source scan. -/
def claimMinDateAllRows (rows : List (List Cell)) : Option PDate :=
  match findColIdx (rows.headD []) ["next appt start date"] with
  | some dc =>
    match rows.tail.filterMap (fun r => try_parse_any_date (r.getD dc Cell.none)) with
    | [] => Option.none
    | d0 :: rest => some (listMinD d0 rest)
  | Option.none => Option.none

/-- A small concrete destination sheet used to evaluate the theorems:
global dates 2024-03-06 (row 2) and 2024-03-05 (row 3), arlington date
2024-03-06 (row 2). -/
def sheetW : Sheet :=
  ⟨3, fun r c =>
    if r = 2 ∧ c = 2 then Cell.date ⟨2024, 3, 6⟩
    else if r = 3 ∧ c = 2 then Cell.date ⟨2024, 3, 5⟩
    else if r = 2 ∧ c = 9 then Cell.date ⟨2024, 3, 6⟩
    else Cell.text ""⟩

/-- Concrete upcoming totals used to evaluate the theorems. -/
def totalsW : AList String (AList PDate ℚ) :=
  [("arlington", [(⟨2024, 3, 6⟩, 100), (⟨2024, 3, 5⟩, 40)]),
   ("carrollton", []), ("colleyville", []), ("dallas", []), ("denton", [])]

/-- A concrete upcoming extract whose earliest date sits on a row with an
unconfigured business unit. -/
def rowsCE : List (List Cell) :=
  [[Cell.text "Business Unit", Cell.text "Next Appt Start Date",
    Cell.text "Jobs Subtotal"],
   [Cell.text "zzz", Cell.date ⟨2024, 1, 1⟩, Cell.num 5],
   [Cell.text "arlington", Cell.date ⟨2024, 3, 5⟩, Cell.num 7]]

/-- The aggregation result of `rowsCE` (the scan adds the single amount `7`
to an empty per-unit map and rounds it). -/
def tCE : AList String (AList PDate ℚ) :=
  [("arlington", [(⟨2024, 3, 5⟩, round2 7)]), ("carrollton", []), ("colleyville", []),
   ("dallas", []), ("denton", [])]

/-- A concrete completed extract mentioning only one unit. -/
def rowsC10 : List (List Cell) :=
  [[Cell.text "Business Unit", Cell.text "Jobs Subtotal"],
   [Cell.text "dallas", Cell.num 10]]

/-- The per-unit sums of `rowsC10` (the scan accumulates `dallas` from the
zero initializer and rounds every unit). -/
def bC10 : AList String ℚ :=
  [("arlington", round2 0), ("carrollton", round2 0), ("colleyville", round2 0),
   ("dallas", round2 (0 + 10)), ("denton", round2 0)]

/-- Header of the concrete last-non-blank table. -/
def rowsLnbHeader : List Cell :=
  [Cell.text "business unit", Cell.text "jobs subtotal"]

/-- Body of the concrete last-non-blank table (the spec's §8 scenario). -/
def rowsLnbBody : List (List Cell) :=
  [[Cell.text "dallas", Cell.num 10], [Cell.text "dallas", Cell.text ""],
   [Cell.text "dallas", Cell.num 20]]

/-! ### Association-list lemmas -/

theorem alookup_alistSet {α β : Type} [DecidableEq α] (m : AList α β) (k k' : α) (v : β) :
    alookup (alistSet m k v) k' = if k' = k then some v else alookup m k' := by
  induction m with
  | nil => simp [alistSet, alookup]
  | cons p t ih =>
    obtain ⟨k₀, v₀⟩ := p
    by_cases h : k₀ = k
    · subst h
      by_cases h' : k' = k₀ <;> simp [alistSet, alookup, h']
    · by_cases h' : k' = k₀
      · subst h'
        simp [alistSet, alookup, h, Ne.symm h]
      · simp [alistSet, alookup, h, h', ih]

theorem alookup_alistAdd {α : Type} [DecidableEq α] (m : AList α ℚ) (k k' : α) (v : ℚ) :
    alookup (alistAdd m k v) k' =
      if k' = k then some ((alookup m k).getD 0 + v) else alookup m k' := by
  induction m with
  | nil => simp [alistAdd, alookup]
  | cons p t ih =>
    obtain ⟨k₀, v₀⟩ := p
    by_cases h : k₀ = k
    · subst h
      by_cases h' : k' = k₀ <;> simp [alistAdd, alookup, h']
    · by_cases h' : k' = k₀
      · subst h'
        simp [alistAdd, alookup, h, Ne.symm h]
      · simp [alistAdd, alookup, h, h', ih, Ne.symm h]

theorem alookup_alistModify {α β : Type} [DecidableEq α] (m : AList α β) (k k' : α)
    (f : β → β) :
    alookup (alistModify m k f) k' =
      if k' = k then (alookup m k).map f else alookup m k' := by
  induction m with
  | nil => simp [alistModify, alookup]
  | cons p t ih =>
    obtain ⟨k₀, v₀⟩ := p
    by_cases h : k₀ = k
    · subst h
      by_cases h' : k' = k₀ <;> simp [alistModify, alookup, h']
    · by_cases h' : k' = k₀
      · subst h'
        simp [alistModify, alookup, h, Ne.symm h]
      · simp [alistModify, alookup, h, h', ih, Ne.symm h]

theorem alookup_map_snd {α β γ : Type} [DecidableEq α] (m : AList α β) (f : β → γ) (k : α) :
    alookup (m.map (fun p => (p.1, f p.2))) k = (alookup m k).map f := by
  induction m with
  | nil => simp [alookup]
  | cons p t ih =>
    obtain ⟨k₀, v₀⟩ := p
    by_cases h : k = k₀ <;> simp [alookup, h, ih]

theorem keys_alistModify {α β : Type} [DecidableEq α] (m : AList α β) (k : α) (f : β → β) :
    (alistModify m k f).map Prod.fst = m.map Prod.fst := by
  induction m with
  | nil => simp [alistModify]
  | cons p t ih =>
    obtain ⟨k₀, v₀⟩ := p
    by_cases h : k₀ = k <;> simp [alistModify, h, ih]

theorem keys_map_snd {α β γ : Type} (m : AList α β) (f : β → γ) :
    (m.map (fun p => (p.1, f p.2))).map Prod.fst = m.map Prod.fst := by
  induction m with
  | nil => simp
  | cons p t ih => simp [ih]

theorem alookup_mem {α β : Type} [DecidableEq α] {m : AList α β} {k : α} {v : β}
    (h : alookup m k = some v) : (k, v) ∈ m := by
  induction m with
  | nil => simp [alookup] at h
  | cons p t ih =>
    obtain ⟨k₀, v₀⟩ := p
    by_cases h' : k = k₀
    · subst h'
      simp [alookup] at h
      simp [h]
    · simp [alookup, h'] at h
      simp [ih h]

theorem alookup_isSome_iff {α β : Type} [DecidableEq α] (m : AList α β) (k : α) :
    (alookup m k).isSome = true ↔ k ∈ m.map Prod.fst := by
  induction m with
  | nil => simp [alookup]
  | cons p t ih =>
    obtain ⟨k₀, v₀⟩ := p
    by_cases h : k = k₀ <;> simp [alookup, h, ih]

theorem alookup_eq_none_iff {α β : Type} [DecidableEq α] (m : AList α β) (k : α) :
    alookup m k = Option.none ↔ k ∉ m.map Prod.fst := by
  rw [← alookup_isSome_iff]
  cases alookup m k <;> simp

theorem alookup_of_mem_nodup {α β : Type} [DecidableEq α] {m : AList α β} {k : α} {v : β}
    (hnd : (m.map Prod.fst).Nodup) (h : (k, v) ∈ m) : alookup m k = some v := by
  induction m with
  | nil => simp at h
  | cons p t ih =>
    obtain ⟨k₀, v₀⟩ := p
    simp only [List.map_cons, List.nodup_cons] at hnd
    rcases List.mem_cons.mp h with h0 | h0
    · injection h0 with h0a h0b
      subst h0a; subst h0b
      simp [alookup]
    · have hk : k ≠ k₀ := fun he => hnd.1 (he ▸ List.mem_map.mpr ⟨(k, v), h0, rfl⟩)
      simp [alookup, hk, ih hnd.2 h0]

theorem alookup_append {α β : Type} [DecidableEq α] (m₁ m₂ : AList α β) (k : α) :
    alookup (m₁ ++ m₂) k = (alookup m₁ k).or (alookup m₂ k) := by
  induction m₁ with
  | nil => simp [alookup]
  | cons p t ih =>
    obtain ⟨k₀, v₀⟩ := p
    by_cases h : k = k₀ <;> simp [alookup, h, ih]

/-! ### Date-order lemmas -/

theorem PDate.ble_iff (a b : PDate) : PDate.ble a b = true ↔
    (a.y < b.y ∨ (a.y = b.y ∧ (a.m < b.m ∨ (a.m = b.m ∧ a.d ≤ b.d)))) := by
  simp [PDate.ble]

theorem PDate.ble_refl (a : PDate) : PDate.ble a a = true := by
  rw [PDate.ble_iff]; omega

theorem PDate.ble_trans {a b c : PDate} (h1 : PDate.ble a b = true)
    (h2 : PDate.ble b c = true) : PDate.ble a c = true := by
  rw [PDate.ble_iff] at h1 h2 ⊢; omega

theorem PDate.ble_total (a b : PDate) : PDate.ble a b = true ∨ PDate.ble b a = true := by
  rw [PDate.ble_iff, PDate.ble_iff]; omega

theorem listMinD_mem (a : PDate) (l : List PDate) :
    listMinD a l = a ∨ listMinD a l ∈ l := by
  induction l generalizing a with
  | nil => simp [listMinD]
  | cons d t ih =>
    rw [listMinD]
    by_cases h : PDate.ble a d = true
    · rcases ih a with h' | h' <;> simp [h, h', listMinD]
    · simp only [h]
      rcases ih d with h' | h' <;> simp [if_neg, h, h', listMinD]

theorem listMinD_le (a : PDate) (l : List PDate) :
    ∀ x, (x = a ∨ x ∈ l) → PDate.ble (listMinD a l) x = true := by
  induction l generalizing a with
  | nil =>
    intro x hx
    simp at hx
    rw [hx]
    exact PDate.ble_refl a
  | cons d t ih =>
    intro x hx
    rw [listMinD]
    by_cases h : PDate.ble a d = true
    · rw [if_pos h]
      rcases hx with hx | hx
      · rw [hx]
        exact ih a a (Or.inl rfl)
      · rcases List.mem_cons.mp hx with hx | hx
        · rw [hx]
          exact PDate.ble_trans (ih a a (Or.inl rfl)) h
        · exact ih a x (Or.inr hx)
    · rw [if_neg h]
      have hda : PDate.ble d a = true := (PDate.ble_total a d).resolve_left h
      rcases hx with hx | hx
      · rw [hx]
        exact PDate.ble_trans (ih d d (Or.inl rfl)) hda
      · rcases List.mem_cons.mp hx with hx | hx
        · rw [hx]
          exact ih d d (Or.inl rfl)
        · exact ih d x (Or.inr hx)

/-! ### Date-row-index lemmas -/

theorem find?_reverse_sorted {p : Nat → Bool} :
    ∀ (l : List Nat), l.Pairwise (· < ·) → ∀ (r : Nat),
      (l.reverse.find? p = some r ↔
        r ∈ l ∧ p r = true ∧ ∀ r' ∈ l, r < r' → p r' = false) := by
  intro l
  induction l with
  | nil => intro _ r; simp
  | cons x t ih =>
    intro hl r
    rw [List.pairwise_cons] at hl
    rw [List.reverse_cons, List.find?_append]
    rcases hf : t.reverse.find? p with _ | a
    · rw [List.find?_eq_none] at hf
      simp only [List.mem_reverse] at hf
      rw [Option.none_or, List.find?_singleton]
      constructor
      · intro hsome
        by_cases hx : p x = true
        · rw [if_pos hx] at hsome
          injection hsome with he
          subst he
          refine ⟨List.mem_cons_self x t, hx, ?_⟩
          intro r' hr' hlt
          rcases List.mem_cons.mp hr' with h0 | h0
          · exact absurd hlt (by omega)
          · exact Bool.eq_false_iff.mpr (hf r' h0)
        · rw [if_neg hx] at hsome
          cases hsome
      · rintro ⟨hmem, hp, _⟩
        rcases List.mem_cons.mp hmem with h0 | h0
        · rw [h0] at hp ⊢
          rw [if_pos hp]
        · exact absurd hp (hf r h0)
    · have ha := (ih hl.2 a).mp hf
      have hor : (some a).or (List.find? p [x]) = some a := rfl
      rw [hor]
      constructor
      · intro hsome
        injection hsome with he
        subst he
        refine ⟨List.mem_cons_of_mem _ ha.1, ha.2.1, ?_⟩
        intro r' hr' hlt
        rcases List.mem_cons.mp hr' with h0 | h0
        · subst h0
          exact absurd (hl.1 a ha.1) (by omega)
        · exact ha.2.2 r' h0 hlt
      · rintro ⟨hmem, hp, hbnd⟩
        have hax : a ∈ x :: t := List.mem_cons_of_mem _ ha.1
        rcases List.mem_cons.mp hmem with h0 | h0
        · rw [h0] at hbnd
          have hxa : x < a := hl.1 a ha.1
          have hfa := hbnd a hax hxa
          rw [ha.2.1] at hfa
          cases hfa
        · have h1 : ¬ a < r := fun hlt => by
            have hc := ha.2.2 r h0 hlt
            rw [hp] at hc
            cases hc
          have h2 : ¬ r < a := fun hlt => by
            have hc := hbnd a hax hlt
            rw [ha.2.1] at hc
            cases hc
          have he : a = r := by omega
          rw [he]

theorem alookup_foldl_idxStep (s : Sheet) (c : Nat) (L : List Nat)
    (m : AList PDate Nat) (d : PDate) :
    alookup (L.foldl (idxStep s c) m) d =
      (L.reverse.find? (fun r => decide (try_parse_any_date (s.cells r c) = some d))).or
        (alookup m d) := by
  induction L generalizing m with
  | nil => simp
  | cons r t ih =>
    rw [List.foldl_cons, ih, List.reverse_cons, List.find?_append, Option.or_assoc]
    congr 1
    rw [List.find?_singleton]
    by_cases hp : try_parse_any_date (s.cells r c) = some d
    · rw [if_pos (by simpa using hp)]
      unfold idxStep
      rw [hp, alookup_alistSet, if_pos rfl]
      rfl
    · rw [if_neg (by simpa using hp)]
      unfold idxStep
      rcases h0 : try_parse_any_date (s.cells r c) with _ | d'
      · simp
      · rw [alookup_alistSet, if_neg (by
          intro he
          subst he
          exact hp h0)]
        simp

/-- The date-row index, characterized: a date maps to row `r` exactly when
`r` is in the body range `2..max_row`, its cell in the date column
normalizes to that date, and no later row's cell does. -/
theorem build_map_lookup_iff (s : Sheet) (c : Nat) (d : PDate) (r : Nat) :
    alookup (build_sheet_date_row_map_xl s c) d = some r ↔
      (2 ≤ r ∧ r ≤ s.maxRow ∧ try_parse_any_date (s.cells r c) = some d ∧
       ∀ r', r < r' → r' ≤ s.maxRow → try_parse_any_date (s.cells r' c) ≠ some d) := by
  unfold build_sheet_date_row_map_xl
  rw [alookup_foldl_idxStep]
  have hnil : alookup ([] : AList PDate Nat) d = Option.none := rfl
  rw [hnil, Option.or_none]
  rw [find?_reverse_sorted _ (List.pairwise_lt_range' 2 (s.maxRow - 1)) r]
  constructor
  · rintro ⟨hmem, hp, hbnd⟩
    rw [List.mem_range'_1] at hmem
    refine ⟨by omega, by omega, by simpa using hp, ?_⟩
    intro r' h1 h2 hcontra
    have hr' : r' ∈ List.range' 2 (s.maxRow - 1) := by
      rw [List.mem_range'_1]; omega
    have := hbnd r' hr' h1
    rw [hcontra] at this
    simp at this
  · rintro ⟨h1, h2, hp, hbnd⟩
    refine ⟨by rw [List.mem_range'_1]; omega, by simpa using hp, ?_⟩
    intro r' hr' hlt
    rw [List.mem_range'_1] at hr'
    simpa using hbnd r' hlt (by omega)

/-- Distinct dates never map to the same row. -/
theorem build_map_inj (s : Sheet) (c : Nat) {d d' : PDate} {r : Nat}
    (h : alookup (build_sheet_date_row_map_xl s c) d = some r)
    (h' : alookup (build_sheet_date_row_map_xl s c) d' = some r) : d = d' := by
  have hd := (build_map_lookup_iff s c d r).mp h
  have hd' := (build_map_lookup_iff s c d' r).mp h'
  have := hd.2.2.1.symm.trans hd'.2.2.1
  injection this

/-! ### Write-application lemmas -/

theorem foldl_lastWrite_acc (ws : List Write) (r c : Nat) :
    ∀ (acc : Option Cell),
      ws.foldl (fun a w => if r = w.row ∧ c = w.col then some w.val else a) acc =
        (lastWriteVal ws r c).or acc := by
  induction ws with
  | nil => intro acc; simp [lastWriteVal]
  | cons w t ih =>
    intro acc
    simp only [lastWriteVal, List.foldl_cons]
    have h1 := ih (if r = w.row ∧ c = w.col then some w.val else acc)
    have h2 := ih (if r = w.row ∧ c = w.col then some w.val else Option.none)
    simp only [lastWriteVal] at h1 h2
    rw [h1, h2, Option.or_assoc]
    congr 1
    by_cases h : r = w.row ∧ c = w.col <;> simp [h]

theorem applyWrites_maxRow (s : Sheet) (ws : List Write) :
    (applyWrites s ws).maxRow = s.maxRow := by
  induction ws generalizing s with
  | nil => rfl
  | cons w t ih => rw [applyWrites, List.foldl_cons, ← applyWrites, ih]; rfl

theorem applyWrites_cells (s : Sheet) (ws : List Write) (r c : Nat) :
    (applyWrites s ws).cells r c = (lastWriteVal ws r c).getD (s.cells r c) := by
  induction ws generalizing s with
  | nil => simp [applyWrites, lastWriteVal]
  | cons w t ih =>
    rw [applyWrites, List.foldl_cons, ← applyWrites, ih]
    have h2 : lastWriteVal (w :: t) r c =
        (lastWriteVal t r c).or (if r = w.row ∧ c = w.col then some w.val else Option.none) :=
      foldl_lastWrite_acc t r c _
    rw [h2]
    rcases hl : lastWriteVal t r c with _ | v
    · by_cases h : r = w.row ∧ c = w.col
      · simp [h, setCell]
      · simp [h, setCell]
    · simp

/-- Applying any batch of writes twice equals applying it once: writes read
nothing, so the second pass rewrites every touched cell to the same value. -/
theorem applyWrites_twice (s : Sheet) (ws : List Write) :
    applyWrites (applyWrites s ws) ws = applyWrites s ws := by
  ext r c
  · rw [applyWrites_maxRow, applyWrites_maxRow]
  · have h1 := applyWrites_cells s ws r c
    have h2 := applyWrites_cells (applyWrites s ws) ws r c
    rw [h2, h1]
    rcases lastWriteVal ws r c with _ | v
    · rfl
    · rfl

/-! ### Planner lemmas -/

theorem mem_schedWrites (anchor : PDate) (idx : AList PDate Nat) (col : Nat)
    (dmap : AList PDate ℚ) (r c0 : Nat) (v : Cell) :
    (Write.mk r c0 v) ∈ schedWrites anchor idx col dmap ↔
      c0 = col ∧ ∃ d amt, (d, amt) ∈ dmap ∧ PDate.ble d anchor = false ∧
        alookup idx d = some r ∧ v = Cell.num amt := by
  rw [schedWrites, List.mem_filterMap]
  constructor
  · rintro ⟨⟨d, amt⟩, hmem, hf⟩
    by_cases hb : PDate.ble d anchor = true
    · rw [if_pos hb] at hf
      cases hf
    · rw [if_neg hb] at hf
      rcases hidx : alookup idx d with _ | row
      · rw [hidx] at hf
        cases hf
      · rw [hidx] at hf
        injection hf with hf2
        injection hf2 with h1 h2 h3
        subst h1
        subst h2
        subst h3
        exact ⟨rfl, d, amt, hmem, Bool.eq_false_iff.mpr hb, hidx, rfl⟩
  · rintro ⟨hc, d, amt, hmem, hb, hidx, hv⟩
    refine ⟨(d, amt), hmem, ?_⟩
    rw [if_neg (by rw [hb]; exact Bool.false_ne_true), hidx, hc, hv]

theorem sumKey_nil (d : PDate) : sumKey [] d = 0 := rfl

theorem sumKey_cons (q : PDate × ℚ) (l : List (PDate × ℚ)) (d : PDate) :
    sumKey (q :: l) d = (if q.1 = d then q.2 else 0) + sumKey l d := by
  by_cases h : q.1 = d <;> simp [sumKey, h]

theorem sumKey_eq_zero {l : List (PDate × ℚ)} {d : PDate}
    (h : d ∉ l.map Prod.fst) : sumKey l d = 0 := by
  induction l with
  | nil => rfl
  | cons q t ih =>
    simp only [List.map_cons, List.mem_cons] at h
    push_neg at h
    rw [sumKey_cons, if_neg (by exact fun he => h.1 he.symm), ih h.2, add_zero]

theorem sumKey_eq_alookup {l : List (PDate × ℚ)} (hnd : (l.map Prod.fst).Nodup)
    (d : PDate) : sumKey l d = (alookup l d).getD 0 := by
  induction l with
  | nil => rfl
  | cons q t ih =>
    obtain ⟨k, v⟩ := q
    simp only [List.map_cons, List.nodup_cons] at hnd
    rw [sumKey_cons]
    by_cases h : k = d
    · subst h
      rw [if_pos rfl, sumKey_eq_zero hnd.1, add_zero]
      simp [alookup]
    · rw [if_neg h, zero_add, ih hnd.2]
      have hne : ¬ d = k := fun he => h he.symm
      simp [alookup, hne]

theorem mem_keys_alistAdd (m : AList PDate ℚ) (k k' : PDate) (v : ℚ) :
    k' ∈ (alistAdd m k v).map Prod.fst ↔ k' = k ∨ k' ∈ m.map Prod.fst := by
  rw [← alookup_isSome_iff, ← alookup_isSome_iff, alookup_alistAdd]
  by_cases h : k' = k <;> simp [h]

theorem alookup_innerAdd (d : PDate) (l : List (PDate × ℚ)) :
    ∀ (gt : AList PDate ℚ),
      alookup (l.foldl (fun g q => alistAdd g q.1 q.2) gt) d =
        if d ∈ l.map Prod.fst ∨ d ∈ gt.map Prod.fst then
          some ((alookup gt d).getD 0 + sumKey l d)
        else Option.none := by
  induction l with
  | nil =>
    intro gt
    by_cases h : d ∈ gt.map Prod.fst
    · rcases Option.isSome_iff_exists.mp ((alookup_isSome_iff gt d).mpr h) with ⟨v, hv⟩
      simp [h, hv, sumKey_nil]
    · simp [h, (alookup_eq_none_iff gt d).mpr h]
  | cons q t ih =>
    intro gt
    rw [List.foldl_cons, ih, sumKey_cons, alookup_alistAdd]
    by_cases h : d = q.1
    · have hk : d ∈ (alistAdd gt q.1 q.2).map Prod.fst :=
        (mem_keys_alistAdd gt q.1 d q.2).mpr (Or.inl h)
      have hm : d ∈ List.map Prod.fst (q :: t) := by
        rw [List.map_cons, List.mem_cons]
        exact Or.inl h
      rw [if_pos (Or.inr hk), if_pos (Or.inl hm), if_pos h, if_pos h.symm, h]
      congr 1
      simp only [Option.getD_some]
      ring
    · have hne : ¬ q.1 = d := fun he => h he.symm
      have hk := mem_keys_alistAdd gt q.1 d q.2
      rw [if_neg h, if_neg hne, zero_add]
      by_cases h2 : d ∈ t.map Prod.fst ∨ d ∈ gt.map Prod.fst
      · rw [if_pos (by
            rcases h2 with h2 | h2
            · exact Or.inl h2
            · exact Or.inr (hk.mpr (Or.inr h2))),
          if_pos (by
            rcases h2 with h2 | h2
            · exact Or.inl (by
                rw [List.map_cons, List.mem_cons]
                exact Or.inr h2)
            · exact Or.inr h2)]
      · rw [if_neg (by
            intro hcon
            rcases hcon with hcon | hcon
            · exact h2 (Or.inl hcon)
            · rcases hk.mp hcon with hc | hc
              · exact h hc
              · exact h2 (Or.inr hc)),
          if_neg (by
            intro hcon
            rcases hcon with hcon | hcon
            · rw [List.map_cons, List.mem_cons] at hcon
              rcases hcon with hc | hc
              · exact h hc
              · exact h2 (Or.inl hc)
            · exact h2 (Or.inr hcon))]

theorem alookup_outerAdd (d : PDate) (totals : AList String (AList PDate ℚ)) :
    ∀ (gt0 : AList PDate ℚ),
      alookup (totals.foldl
          (fun gt p => p.2.foldl (fun g q => alistAdd g q.1 q.2) gt) gt0) d =
        if d ∈ gt0.map Prod.fst ∨ ∃ p ∈ totals, d ∈ p.2.map Prod.fst then
          some ((alookup gt0 d).getD 0 + (totals.map (fun p => sumKey p.2 d)).sum)
        else Option.none := by
  induction totals with
  | nil =>
    intro gt0
    by_cases h : d ∈ gt0.map Prod.fst
    · rcases Option.isSome_iff_exists.mp ((alookup_isSome_iff gt0 d).mpr h) with ⟨v, hv⟩
      simp [h, hv]
    · simp [h, (alookup_eq_none_iff gt0 d).mpr h]
  | cons p t ih =>
    intro gt0
    rw [List.foldl_cons, ih]
    by_cases h1 : d ∈ p.2.map Prod.fst ∨ d ∈ gt0.map Prod.fst
    · have hinner : alookup (p.2.foldl (fun g q => alistAdd g q.1 q.2) gt0) d =
          some ((alookup gt0 d).getD 0 + sumKey p.2 d) := by
        rw [alookup_innerAdd, if_pos h1]
      have hkey : d ∈ (p.2.foldl (fun g q => alistAdd g q.1 q.2) gt0).map Prod.fst := by
        rw [← alookup_isSome_iff, hinner]
        rfl
      rw [if_pos (Or.inl hkey), hinner]
      rw [if_pos (by
        rcases h1 with h1 | h1
        · exact Or.inr ⟨p, List.mem_cons_self p t, h1⟩
        · exact Or.inl h1)]
      simp only [Option.getD_some, List.map_cons, List.sum_cons]
      congr 1
      ring
    · push_neg at h1
      have hinner : alookup (p.2.foldl (fun g q => alistAdd g q.1 q.2) gt0) d =
          Option.none := by
        rw [alookup_innerAdd, if_neg (by
          intro hcon
          rcases hcon with hcon | hcon
          · exact absurd hcon h1.1
          · exact absurd hcon h1.2)]
      have hkey : d ∉ (p.2.foldl (fun g q => alistAdd g q.1 q.2) gt0).map Prod.fst :=
        (alookup_eq_none_iff _ d).mp hinner
      by_cases h2 : ∃ q ∈ t, d ∈ q.2.map Prod.fst
      · rw [if_pos (Or.inr h2), hinner]
        rw [if_pos (Or.inr (by
          rcases h2 with ⟨q, hq, hd⟩
          exact ⟨q, List.mem_cons_of_mem p hq, hd⟩))]
        rw [(alookup_eq_none_iff gt0 d).mpr h1.2]
        simp only [Option.getD_none, List.map_cons, List.sum_cons,
          sumKey_eq_zero h1.1]
        congr 1
        ring
      · rw [if_neg (by
          intro hcon
          rcases hcon with hcon | hcon
          · exact absurd hcon hkey
          · exact absurd hcon h2)]
        rw [if_neg (by
          intro hcon
          rcases hcon with hcon | ⟨q, hq, hd⟩
          · exact absurd hcon h1.2
          · rcases List.mem_cons.mp hq with h0 | h0
            · exact absurd (h0 ▸ hd) h1.1
            · exact h2 ⟨q, h0, hd⟩)]

theorem alookup_globalTotalsOf (totals : AList String (AList PDate ℚ)) (d : PDate) :
    alookup (globalTotalsOf totals) d =
      if ∃ p ∈ totals, d ∈ p.2.map Prod.fst then
        some (round2 ((totals.map (fun p => sumKey p.2 d)).sum))
      else Option.none := by
  rw [globalTotalsOf, alookup_map_snd, alookup_outerAdd]
  by_cases h : ∃ p ∈ totals, d ∈ p.2.map Prod.fst
  · rw [if_pos (by simpa using h), if_pos h]
    simp [alookup]
  · rw [if_neg (by simpa using h), if_neg h]
    rfl

theorem mem_keys_globalTotalsOf (totals : AList String (AList PDate ℚ)) (d : PDate) :
    d ∈ (globalTotalsOf totals).map Prod.fst ↔ ∃ p ∈ totals, d ∈ p.2.map Prod.fst := by
  rw [← alookup_isSome_iff, alookup_globalTotalsOf]
  by_cases h : ∃ p ∈ totals, d ∈ p.2.map Prod.fst <;> simp [h]

theorem BU_nodup_keys : (BU_MAP.map Prod.fst).Nodup := by decide

theorem BU_sched_ne_base : ∀ p ∈ BU_MAP, p.2.scheduled_col ≠ COL_SCHEDULED := by decide

theorem BU_sched_inj :
    ∀ p ∈ BU_MAP, ∀ q ∈ BU_MAP, p.2.scheduled_col = q.2.scheduled_col → p = q := by
  decide

theorem upw_mem_cases (s : Sheet) (anchor : PDate)
    (totals : AList String (AList PDate ℚ)) (w : Write) :
    w ∈ upcomingWrites s anchor totals ↔
      w ∈ schedWrites anchor (build_sheet_date_row_map_xl s COL_DATE) COL_SCHEDULED
        (globalTotalsOf totals) ∨
      ∃ p ∈ totals, ∃ cols, alookup BU_MAP p.1 = some cols ∧
        w ∈ schedWrites anchor (build_sheet_date_row_map_xl s cols.date_col)
          cols.scheduled_col p.2 := by
  rw [upcomingWrites, List.mem_append, List.mem_flatMap]
  constructor
  · rintro (hg | ⟨p, hp, hw⟩)
    · exact Or.inl hg
    · rcases hcols : alookup BU_MAP p.1 with _ | cols
      · rw [hcols] at hw
        cases hw
      · rw [hcols] at hw
        exact Or.inr ⟨p, hp, cols, hcols, hw⟩
  · rintro (hg | ⟨p, hp, cols, hcols, hw⟩)
    · exact Or.inl hg
    · refine Or.inr ⟨p, hp, ?_⟩
      rw [hcols]
      exact hw

theorem upw_global_mem (s : Sheet) (anchor : PDate)
    (totals : AList String (AList PDate ℚ)) (r : Nat) (v : Cell) :
    Write.mk r COL_SCHEDULED v ∈ upcomingWrites s anchor totals ↔
      ∃ d amt, (d, amt) ∈ globalTotalsOf totals ∧ PDate.ble d anchor = false ∧
        alookup (build_sheet_date_row_map_xl s COL_DATE) d = some r ∧
        v = Cell.num amt := by
  rw [upw_mem_cases]
  constructor
  · rintro (hg | ⟨p, hp, cols, hcols, hw⟩)
    · exact ((mem_schedWrites ..).mp hg).2
    · exfalso
      have hcol := ((mem_schedWrites ..).mp hw).1
      exact BU_sched_ne_base (p.1, cols) (alookup_mem hcols) hcol.symm
  · intro h
    exact Or.inl ((mem_schedWrites ..).mpr ⟨rfl, h⟩)

theorem upw_bu_mem (s : Sheet) (anchor : PDate)
    (totals : AList String (AList PDate ℚ))
    (hkeys : totals.map Prod.fst = BU_MAP.map Prod.fst)
    (bu : String) (cols : BUCols) (hbu : (bu, cols) ∈ BU_MAP)
    (dmap : AList PDate ℚ) (hdm : alookup totals bu = some dmap) (r : Nat) (v : Cell) :
    Write.mk r cols.scheduled_col v ∈ upcomingWrites s anchor totals ↔
      ∃ d amt, (d, amt) ∈ dmap ∧ PDate.ble d anchor = false ∧
        alookup (build_sheet_date_row_map_xl s cols.date_col) d = some r ∧
        v = Cell.num amt := by
  have hndt : (totals.map Prod.fst).Nodup := by
    rw [hkeys]
    exact BU_nodup_keys
  rw [upw_mem_cases]
  constructor
  · rintro (hg | ⟨p, hp, cols', hcols', hw⟩)
    · exfalso
      have hcol := ((mem_schedWrites ..).mp hg).1
      exact BU_sched_ne_base (bu, cols) hbu hcol
    · have hcol := ((mem_schedWrites ..).mp hw).1
      have hpmem : (p.1, cols') ∈ BU_MAP := alookup_mem hcols'
      have heq : ((p.1, cols') : String × BUCols) = (bu, cols) :=
        BU_sched_inj (p.1, cols') hpmem (bu, cols) hbu hcol.symm
      injection heq with he1 he2
      have hp2 : alookup totals bu = some p.2 := by
        rw [← he1]
        exact alookup_of_mem_nodup hndt (by
          have : p = (p.1, p.2) := rfl
          rw [← this]
          exact hp)
      have hdd : p.2 = dmap := by
        rw [hp2] at hdm
        injection hdm
      rw [← he2, ← hdd]
      exact ((mem_schedWrites ..).mp hw).2
  · intro h
    refine Or.inr ⟨(bu, dmap), alookup_mem hdm, cols, ?_, ?_⟩
    · exact alookup_of_mem_nodup BU_nodup_keys hbu
    · exact (mem_schedWrites ..).mpr ⟨rfl, h⟩

/-! ### Completed-application lemmas -/

theorem BU_nodup : BU_MAP.Nodup := by decide

theorem BU_cols_ne_base :
    ∀ p ∈ BU_MAP, p.2.completed_col ≠ COL_COMPLETED ∧
      p.2.completed_col ≠ COL_SCHEDULED ∧ p.2.scheduled_col ≠ COL_COMPLETED ∧
      p.2.scheduled_col ≠ COL_SCHEDULED := by decide

theorem BU_pair_cols_disjoint :
    ∀ p ∈ BU_MAP, ∀ q ∈ BU_MAP, p ≠ q →
      p.2.completed_col ≠ q.2.completed_col ∧ p.2.completed_col ≠ q.2.scheduled_col ∧
      p.2.scheduled_col ≠ q.2.completed_col ∧ p.2.scheduled_col ≠ q.2.scheduled_col := by
  decide

theorem BU_base_ne_date :
    ∀ p ∈ BU_MAP, COL_COMPLETED ≠ p.2.date_col ∧ COL_SCHEDULED ≠ p.2.date_col := by
  decide

theorem BU_wcols_ne_date :
    ∀ p ∈ BU_MAP, ∀ q ∈ BU_MAP,
      p.2.completed_col ≠ q.2.date_col ∧ p.2.scheduled_col ≠ q.2.date_col := by decide

theorem filter_pairWrites_out (o : Option Nat) (c1 c2 : Nat) (v : ℚ)
    (p : Write → Bool) (h1 : ∀ r, p ⟨r, c1, Cell.num v⟩ = false)
    (h2 : ∀ r, p ⟨r, c2, Cell.text ""⟩ = false) :
    (pairWrites o c1 c2 v).filter p = [] := by
  rcases o with _ | r
  · rfl
  · simp [pairWrites, h1 r, h2 r]

theorem filter_pairWrites_in (r : Nat) (c1 c2 : Nat) (v : ℚ)
    (p : Write → Bool) (h1 : p ⟨r, c1, Cell.num v⟩ = true)
    (h2 : p ⟨r, c2, Cell.text ""⟩ = true) :
    (pairWrites (some r) c1 c2 v).filter p =
      [⟨r, c1, Cell.num v⟩, ⟨r, c2, Cell.text ""⟩] := by
  simp [pairWrites, h1, h2]

theorem filter_flatMap {α β : Type} (l : List α) (f : α → List β) (p : β → Bool) :
    (l.flatMap f).filter p = l.flatMap (fun x => (f x).filter p) := by
  induction l with
  | nil => rfl
  | cons x t ih => simp [List.filter_append, ih]

theorem flatMap_nil_of {α β : Type} (l : List α) (f : α → List β)
    (h : ∀ x ∈ l, f x = []) : l.flatMap f = [] := by
  induction l with
  | nil => rfl
  | cons x t ih =>
    rw [List.flatMap_cons, h x (List.mem_cons_self x t),
      ih (fun y hy => h y (List.mem_cons_of_mem x hy))]
    rfl

theorem flatMap_single {α β : Type} {l : List α} (hnd : l.Nodup) (x0 : α)
    (hx : x0 ∈ l) (f : α → List β) (h : ∀ x ∈ l, x ≠ x0 → f x = []) :
    l.flatMap f = f x0 := by
  induction l with
  | nil => simp at hx
  | cons y t ih =>
    rw [List.nodup_cons] at hnd
    rcases List.mem_cons.mp hx with h0 | h0
    · rw [List.flatMap_cons, flatMap_nil_of t f (fun x hxt => by
        refine h x (List.mem_cons_of_mem y hxt) ?_
        intro he
        exact hnd.1 (by rw [← h0, ← he]; exact hxt))]
      rw [← h0, List.append_nil]
    · rw [List.flatMap_cons, h y (List.mem_cons_self y t) (fun he => hnd.1 (he ▸ h0)),
        List.nil_append]
      exact ih hnd.2 h0 (fun x hxt => h x (List.mem_cons_of_mem y hxt))

theorem setCell_cells_ne (s : Sheet) (r c : Nat) (v : Cell) (r' c' : Nat)
    (h : c' ≠ c) : (setCell s r c v).cells r' c' = s.cells r' c' := by
  show (if r' = r ∧ c' = c then v else s.cells r' c') = s.cells r' c'
  exact if_neg (fun hh => h hh.2)

theorem foldl_idxStep_congr (s s' : Sheet) (c : Nat)
    (hc : ∀ r, s'.cells r c = s.cells r c) :
    ∀ (L : List Nat) (m : AList PDate Nat),
      L.foldl (idxStep s' c) m = L.foldl (idxStep s c) m := by
  intro L
  induction L with
  | nil => intro m; rfl
  | cons r t ih =>
    intro m
    rw [List.foldl_cons, List.foldl_cons]
    have : idxStep s' c m r = idxStep s c m r := by
      rw [idxStep, idxStep, hc r]
    rw [this, ih]

theorem build_congr (s s' : Sheet) (c : Nat) (hmax : s'.maxRow = s.maxRow)
    (hc : ∀ r, s'.cells r c = s.cells r c) :
    build_sheet_date_row_map_xl s' c = build_sheet_date_row_map_xl s c := by
  rw [build_sheet_date_row_map_xl, build_sheet_date_row_map_xl, hmax,
    foldl_idxStep_congr s s' c hc]

theorem applyWrites_append (s : Sheet) (l1 l2 : List Write) :
    applyWrites s (l1 ++ l2) = applyWrites (applyWrites s l1) l2 := by
  rw [applyWrites, List.foldl_append]
  rfl

theorem applyWrites_cells_ne (s : Sheet) (ws : List Write) (r c : Nat)
    (h : ∀ w ∈ ws, w.col ≠ c) : (applyWrites s ws).cells r c = s.cells r c := by
  induction ws generalizing s with
  | nil => rfl
  | cons w t ih =>
    rw [applyWrites, List.foldl_cons, ← applyWrites,
      ih (setCell s w.row w.col w.val) (fun x hx => h x (List.mem_cons_of_mem w hx)),
      setCell_cells_ne _ _ _ _ _ _ (fun he => h w (List.mem_cons_self w t) he.symm)]

theorem completed_fold (fd : PDate) (bus : AList String ℚ) :
    ∀ (l : List (String × BUCols)) (acc s : Sheet),
      acc.maxRow = s.maxRow →
      (∀ p ∈ l, ∀ r, acc.cells r p.2.date_col = s.cells r p.2.date_col) →
      (∀ p ∈ l, ∀ q ∈ l, p.2.completed_col ≠ q.2.date_col ∧
        p.2.scheduled_col ≠ q.2.date_col) →
      l.foldl (cwStep fd bus) acc =
        applyWrites acc (l.flatMap (fun p =>
          pairWrites (alookup (build_sheet_date_row_map_xl s p.2.date_col) fd)
            p.2.completed_col p.2.scheduled_col ((alookup bus p.1).getD 0))) := by
  intro l
  induction l with
  | nil => intro acc s _ _ _; rfl
  | cons p t ih =>
    intro acc s hmax hcells hdisj
    rw [List.foldl_cons, List.flatMap_cons, applyWrites_append]
    have hbuild : build_sheet_date_row_map_xl acc p.2.date_col =
        build_sheet_date_row_map_xl s p.2.date_col :=
      build_congr s acc p.2.date_col hmax (hcells p (List.mem_cons_self p t))
    have hstep : cwStep fd bus acc p =
        applyWrites acc (pairWrites
          (alookup (build_sheet_date_row_map_xl s p.2.date_col) fd)
          p.2.completed_col p.2.scheduled_col ((alookup bus p.1).getD 0)) := by
      rw [cwStep, hbuild]
      rcases alookup (build_sheet_date_row_map_xl s p.2.date_col) fd with _ | r
      · rfl
      · rfl
    rw [hstep]
    set pw := pairWrites (alookup (build_sheet_date_row_map_xl s p.2.date_col) fd)
      p.2.completed_col p.2.scheduled_col ((alookup bus p.1).getD 0) with hpw
    have hwcols : ∀ w ∈ pw, w.col = p.2.completed_col ∨ w.col = p.2.scheduled_col := by
      intro w hw
      rw [hpw] at hw
      rcases h0 : alookup (build_sheet_date_row_map_xl s p.2.date_col) fd with _ | r
      · rw [h0] at hw
        cases hw
      · rw [h0] at hw
        rw [pairWrites] at hw
        rcases List.mem_cons.mp hw with h1 | h1
        · rw [h1]
          exact Or.inl rfl
        · rcases List.mem_cons.mp h1 with h2 | h2
          · rw [h2]
            exact Or.inr rfl
          · cases h2
    refine ih (applyWrites acc pw) s ?_ ?_ ?_
    · rw [applyWrites_maxRow, hmax]
    · intro q hq r
      rw [applyWrites_cells_ne acc pw r q.2.date_col (fun w hw => by
        rcases hwcols w hw with h0 | h0
        · rw [h0]
          exact (hdisj p (List.mem_cons_self p t) q (List.mem_cons_of_mem p hq)).1
        · rw [h0]
          exact (hdisj p (List.mem_cons_self p t) q (List.mem_cons_of_mem p hq)).2)]
      exact hcells q (List.mem_cons_of_mem p hq) r
    · intro a ha b hb
      exact hdisj a (List.mem_cons_of_mem p ha) b (List.mem_cons_of_mem p hb)

/-- The sequential source loop of `apply_completed_to_workbook` equals the
one-shot application of the planned batch: the interleaved writes touch only
completed/scheduled columns, never a date column, so every rebuilt index
agrees with the one built from the input sheet. -/
theorem apply_completed_eq_writes (s : Sheet) (fd : PDate) (g : ℚ)
    (bus : AList String ℚ) :
    apply_completed_to_workbook s fd g bus =
      applyWrites s (completedWrites s fd g bus) := by
  rw [apply_completed_to_workbook, completedWrites, applyWrites_append]
  have hbase : (match alookup (build_sheet_date_row_map_xl s COL_DATE) fd with
      | some r => setCell (setCell s r COL_COMPLETED (Cell.num g)) r COL_SCHEDULED
          (Cell.text "")
      | Option.none => s) =
      applyWrites s (pairWrites (alookup (build_sheet_date_row_map_xl s COL_DATE) fd)
        COL_COMPLETED COL_SCHEDULED g) := by
    rcases alookup (build_sheet_date_row_map_xl s COL_DATE) fd with _ | r
    · rfl
    · rfl
  rw [hbase]
  set s1 := applyWrites s (pairWrites
    (alookup (build_sheet_date_row_map_xl s COL_DATE) fd) COL_COMPLETED COL_SCHEDULED g)
    with hs1
  have hmax : s1.maxRow = s.maxRow := applyWrites_maxRow ..
  have hcells : ∀ p ∈ BU_MAP, ∀ r, s1.cells r p.2.date_col = s.cells r p.2.date_col := by
    intro p hp r
    rw [hs1]
    refine applyWrites_cells_ne s _ r p.2.date_col fun w hw => ?_
    rcases h0 : alookup (build_sheet_date_row_map_xl s COL_DATE) fd with _ | row
    · rw [h0] at hw
      cases hw
    · rw [h0] at hw
      rw [pairWrites] at hw
      rcases List.mem_cons.mp hw with h1 | h1
      · rw [h1]
        exact (BU_base_ne_date p hp).1
      · rcases List.mem_cons.mp h1 with h2 | h2
        · rw [h2]
          exact (BU_base_ne_date p hp).2
        · cases h2
  have := completed_fold fd bus BU_MAP s1 s hmax hcells
    (fun p hp q hq => BU_wcols_ne_date p hp q hq)
  rw [← this]
  rfl

/-! ### Aggregator-scan lemmas -/

theorem upFold_ok (bc dc sc : Nat) :
    ∀ (l : List (List Cell)) (st st' : UpSt),
      st.totals.map Prod.fst = unitsList →
      upFold bc dc sc l st = Except.ok st' →
      st'.totals.map Prod.fst = unitsList ∧
        st'.seen = st.seen ++ l.filterMap (upDateOf bc dc sc) := by
  intro l
  induction l with
  | nil =>
    intro st st' hkeys hok
    injection hok with hok
    rw [← hok]
    exact ⟨hkeys, by simp⟩
  | cons r t ih =>
    intro st st' hkeys hok
    rw [upFold] at hok
    rw [List.filterMap_cons]
    by_cases hshort : r.length ≤ max bc (max dc sc)
    · rw [upStep, if_pos hshort] at hok
      rw [upDateOf, if_pos hshort]
      exact ih st st' hkeys hok
    · rw [upStep, if_neg hshort] at hok
      rw [upDateOf, if_neg hshort]
      by_cases hbu : (st.totals.map Prod.fst).contains (buNorm bc r) = false
      · rw [if_pos hbu] at hok
        rw [if_pos (by rw [← hkeys]; exact hbu)]
        exact ih st st' hkeys hok
      · rw [if_neg hbu] at hok
        rw [if_neg (by rw [← hkeys]; exact hbu)]
        rcases hd : try_parse_any_date (r.getD dc Cell.none) with _ | d
        · rw [hd] at hok
          exact ih st st' hkeys hok
        · rw [hd] at hok
          rcases hm : parse_money (r.getD sc Cell.none) with _ | amt
          · rw [hm] at hok
            cases hok
          · rw [hm] at hok
            have hkeys2 : (alistModify st.totals (buNorm bc r)
                (fun m => alistAdd m d amt)).map Prod.fst = unitsList := by
              rw [keys_alistModify]
              exact hkeys
            rcases ih _ st' hkeys2 hok with ⟨h1, h2⟩
            refine ⟨h1, ?_⟩
            rw [h2]
            simp

theorem upFold_untouched (bc dc sc : Nat) (u : String) :
    ∀ (l : List (List Cell)) (st st' : UpSt),
      (∀ r ∈ l, buNorm bc r ≠ u) →
      upFold bc dc sc l st = Except.ok st' →
      alookup st'.totals u = alookup st.totals u := by
  intro l
  induction l with
  | nil =>
    intro st st' _ hok
    injection hok with hok
    rw [← hok]
  | cons r t ih =>
    intro st st' hno hok
    rw [upFold] at hok
    have hnt : ∀ x ∈ t, buNorm bc x ≠ u :=
      fun x hx => hno x (List.mem_cons_of_mem r hx)
    by_cases hshort : r.length ≤ max bc (max dc sc)
    · rw [upStep, if_pos hshort] at hok
      exact ih st st' hnt hok
    · rw [upStep, if_neg hshort] at hok
      by_cases hbu : (st.totals.map Prod.fst).contains (buNorm bc r) = false
      · rw [if_pos hbu] at hok
        exact ih st st' hnt hok
      · rw [if_neg hbu] at hok
        rcases hd : try_parse_any_date (r.getD dc Cell.none) with _ | d
        · rw [hd] at hok
          exact ih st st' hnt hok
        · rw [hd] at hok
          rcases hm : parse_money (r.getD sc Cell.none) with _ | amt
          · rw [hm] at hok
            cases hok
          · rw [hm] at hok
            rw [ih _ st' hnt hok]
            show alookup (alistModify st.totals (buNorm bc r) _) u = _
            rw [alookup_alistModify,
              if_neg (fun he => hno r (List.mem_cons_self r t) he.symm)]

theorem cFold_ok_keys (bc sc : Nat) :
    ∀ (l : List (List Cell)) (g : ℚ) (b : AList String ℚ) (g' : ℚ)
      (b' : AList String ℚ),
      cFold bc sc l g b = Except.ok (g', b') → b'.map Prod.fst = b.map Prod.fst := by
  intro l
  induction l with
  | nil =>
    intro g b g' b' hok
    injection hok with hok
    rw [show b' = b from congrArg Prod.snd hok.symm]
  | cons r t ih =>
    intro g b g' b' hok
    rw [cFold] at hok
    by_cases hshort : r.length ≤ max bc sc
    · rw [if_pos hshort] at hok
      exact ih _ _ _ _ hok
    · rw [if_neg hshort] at hok
      by_cases hblank : blankCell (r.getD sc Cell.none) = true
      · rw [if_pos hblank] at hok
        exact ih _ _ _ _ hok
      · rw [if_neg hblank] at hok
        rcases hm : parse_money (r.getD sc Cell.none) with _ | amt
        · rw [hm] at hok
          cases hok
        · rw [hm] at hok
          have hok2 : cFold bc sc t (g + amt)
              (if (b.map Prod.fst).contains (buNorm bc r) = true then
                alistModify b (buNorm bc r) (· + amt) else b) =
              Except.ok (g', b') := hok
          by_cases hbu : (b.map Prod.fst).contains (buNorm bc r) = true
          · rw [if_pos hbu] at hok2
            rw [ih _ _ _ _ hok2, keys_alistModify]
          · rw [if_neg hbu] at hok2
            exact ih _ _ _ _ hok2

theorem cFold_untouched (bc sc : Nat) (u : String) :
    ∀ (l : List (List Cell)) (g : ℚ) (b : AList String ℚ) (g' : ℚ)
      (b' : AList String ℚ),
      (∀ r ∈ l, buNorm bc r ≠ u) →
      cFold bc sc l g b = Except.ok (g', b') → alookup b' u = alookup b u := by
  intro l
  induction l with
  | nil =>
    intro g b g' b' _ hok
    injection hok with hok
    rw [show b' = b from congrArg Prod.snd hok.symm]
  | cons r t ih =>
    intro g b g' b' hno hok
    rw [cFold] at hok
    have hnt : ∀ x ∈ t, buNorm bc x ≠ u :=
      fun x hx => hno x (List.mem_cons_of_mem r hx)
    by_cases hshort : r.length ≤ max bc sc
    · rw [if_pos hshort] at hok
      exact ih _ _ _ _ hnt hok
    · rw [if_neg hshort] at hok
      by_cases hblank : blankCell (r.getD sc Cell.none) = true
      · rw [if_pos hblank] at hok
        exact ih _ _ _ _ hnt hok
      · rw [if_neg hblank] at hok
        rcases hm : parse_money (r.getD sc Cell.none) with _ | amt
        · rw [hm] at hok
          cases hok
        · rw [hm] at hok
          have hok2 : cFold bc sc t (g + amt)
              (if (b.map Prod.fst).contains (buNorm bc r) = true then
                alistModify b (buNorm bc r) (· + amt) else b) =
              Except.ok (g', b') := hok
          by_cases hbu : (b.map Prod.fst).contains (buNorm bc r) = true
          · rw [if_pos hbu] at hok2
            rw [ih _ _ _ _ hnt hok2, alookup_alistModify,
              if_neg (fun he => hno r (List.mem_cons_self r t) he.symm)]
          · rw [if_neg hbu] at hok2
            exact ih _ _ _ _ hnt hok2

theorem alookup_map_const {α β γ : Type} [DecidableEq α] (m : AList α γ) (c : β)
    (u : α) (hu : u ∈ m.map Prod.fst) :
    alookup (m.map (fun p => (p.1, c))) u = some c := by
  induction m with
  | nil => simp at hu
  | cons p t ih =>
    rw [List.map_cons, List.mem_cons] at hu
    by_cases h : u = p.1
    · show (if u = p.1 then some c else _) = some c
      rw [if_pos h]
    · show (if u = p.1 then some c else alookup (t.map _) u) = some c
      rw [if_neg h]
      exact ih (hu.resolve_left h)

/-! ### Last-non-blank scan lemmas -/

theorem lnbGo_allResolved (bc sc : Nat) (l : List (List Cell)) (st : LnbSt)
    (h : unitsList.all (fun u => (st.res.map Prod.fst).contains u) = true) :
    lnbGo bc sc l st = Except.ok st := by
  cases l with
  | nil => rfl
  | cons r t => rw [lnbGo, if_pos h]

theorem lnbGo_append (bc sc : Nat) :
    ∀ (l1 l2 : List (List Cell)) (st : LnbSt),
      lnbGo bc sc (l1 ++ l2) st =
        match lnbGo bc sc l1 st with
        | Except.ok st' => lnbGo bc sc l2 st'
        | Except.error e => Except.error e := by
  intro l1
  induction l1 with
  | nil => intro l2 st; rfl
  | cons r t ih =>
    intro l2 st
    rw [List.cons_append, lnbGo, lnbGo]
    by_cases hall : unitsList.all (fun u => (st.res.map Prod.fst).contains u) = true
    · rw [if_pos hall, if_pos hall]
      exact (lnbGo_allResolved bc sc l2 st hall).symm
    · rw [if_neg hall, if_neg hall]
      by_cases hshort : r.length ≤ max bc sc
      · rw [if_pos hshort, if_pos hshort]
        exact ih l2 st
      · rw [if_neg hshort, if_neg hshort]
        by_cases hblank : blankCell (r.getD sc Cell.none) = true
        · rw [if_pos hblank, if_pos hblank]
          exact ih l2 st
        · rw [if_neg hblank, if_neg hblank]
          rcases hm : parse_money (r.getD sc Cell.none) with _ | amt
          · rfl
          · exact ih l2 _

theorem lnbGo_mono (bc sc : Nat) :
    ∀ (l : List (List Cell)) (st st' : LnbSt),
      lnbGo bc sc l st = Except.ok st' →
      ∀ u, u ∈ st.res.map Prod.fst → u ∈ st'.res.map Prod.fst := by
  intro l
  induction l with
  | nil =>
    intro st st' hok u hu
    injection hok with hok
    rw [← hok]
    exact hu
  | cons r t ih =>
    intro st st' hok u hu
    rw [lnbGo] at hok
    by_cases hall : unitsList.all (fun x => (st.res.map Prod.fst).contains x) = true
    · rw [if_pos hall] at hok
      injection hok with hok
      rw [← hok]
      exact hu
    · rw [if_neg hall] at hok
      by_cases hshort : r.length ≤ max bc sc
      · rw [if_pos hshort] at hok
        exact ih st st' hok u hu
      · rw [if_neg hshort] at hok
        by_cases hblank : blankCell (r.getD sc Cell.none) = true
        · rw [if_pos hblank] at hok
          exact ih st st' hok u hu
        · rw [if_neg hblank] at hok
          rcases hm : parse_money (r.getD sc Cell.none) with _ | amt
          · rw [hm] at hok
            cases hok
          · rw [hm] at hok
            have hok2 : lnbGo bc sc t ⟨some (st.g.getD amt),
                if unitsList.contains (buNorm bc r) &&
                    !(st.res.map Prod.fst).contains (buNorm bc r) then
                  st.res ++ [(buNorm bc r, amt)]
                else st.res⟩ = Except.ok st' := hok
            by_cases hcond : (unitsList.contains (buNorm bc r) &&
                !(st.res.map Prod.fst).contains (buNorm bc r)) = true
            · rw [if_pos hcond] at hok2
              refine ih _ st' hok2 u ?_
              show u ∈ (st.res ++ [(buNorm bc r, amt)]).map Prod.fst
              rw [List.map_append, List.mem_append]
              exact Or.inl hu
            · rw [if_neg hcond] at hok2
              exact ih _ st' hok2 u hu

theorem lnbGo_resolves (bc sc : Nat) (u : String) (hu : u ∈ unitsList) :
    ∀ (l : List (List Cell)) (st st' : LnbSt),
      (∃ r ∈ l, lnbRelevant bc sc r = true ∧ buNorm bc r = u) →
      lnbGo bc sc l st = Except.ok st' → u ∈ st'.res.map Prod.fst := by
  intro l
  induction l with
  | nil =>
    rintro st st' ⟨r, hr, _⟩ hok
    simp at hr
  | cons r t ih =>
    rintro st st' ⟨r0, hr0, hrel0, hbu0⟩ hok
    rw [lnbGo] at hok
    by_cases hall : unitsList.all (fun x => (st.res.map Prod.fst).contains x) = true
    · rw [if_pos hall] at hok
      injection hok with hok
      rw [← hok]
      have := List.all_eq_true.mp hall u hu
      simpa using this
    · rw [if_neg hall] at hok
      rcases List.mem_cons.mp hr0 with h0 | h0
    -- the head row is the witness
      · rw [h0] at hrel0 hbu0
        have hparts := (Bool.and_eq_true _ _).mp hrel0
        have hnshort : ¬ r.length ≤ max bc sc := by
          have := of_decide_eq_true hparts.1
          omega
        have hnblank : ¬ blankCell (r.getD sc Cell.none) = true := by
          have := hparts.2
          simp at this
          simp [this]
        rw [if_neg hnshort, if_neg hnblank] at hok
        rcases hm : parse_money (r.getD sc Cell.none) with _ | amt
        · rw [hm] at hok
          cases hok
        · rw [hm] at hok
          have hok2 : lnbGo bc sc t ⟨some (st.g.getD amt),
              if unitsList.contains (buNorm bc r) &&
                  !(st.res.map Prod.fst).contains (buNorm bc r) then
                st.res ++ [(buNorm bc r, amt)]
              else st.res⟩ = Except.ok st' := hok
          by_cases hcond : (unitsList.contains (buNorm bc r) &&
              !(st.res.map Prod.fst).contains (buNorm bc r)) = true
          · rw [if_pos hcond] at hok2
            refine lnbGo_mono bc sc t _ st' hok2 u ?_
            show u ∈ (st.res ++ [(buNorm bc r, amt)]).map Prod.fst
            rw [List.map_append, List.mem_append]
            right
            simp [hbu0]
          · rw [if_neg hcond] at hok2
            have hk : u ∈ st.res.map Prod.fst := by
              by_contra hk
              apply hcond
              rw [hbu0]
              rw [Bool.and_eq_true]
              constructor
              · simpa using hu
              · simp
                simpa using hk
            exact lnbGo_mono bc sc t _ st' hok2 u hk
    -- the witness sits in the tail
      · by_cases hshort : r.length ≤ max bc sc
        · rw [if_pos hshort] at hok
          exact ih st st' ⟨r0, h0, hrel0, hbu0⟩ hok
        · rw [if_neg hshort] at hok
          by_cases hblank : blankCell (r.getD sc Cell.none) = true
          · rw [if_pos hblank] at hok
            exact ih st st' ⟨r0, h0, hrel0, hbu0⟩ hok
          · rw [if_neg hblank] at hok
            rcases hm : parse_money (r.getD sc Cell.none) with _ | amt
            · rw [hm] at hok
              cases hok
            · rw [hm] at hok
              exact ih _ st' ⟨r0, h0, hrel0, hbu0⟩ hok

theorem lnbGo_char (bc sc : Nat) :
    ∀ (l : List (List Cell)) (st : LnbSt),
      (∀ k ∈ st.res.map Prod.fst, k ∈ unitsList) →
      (st.res ≠ [] → st.g.isSome = true) →
      (∀ r ∈ l, lnbRelevant bc sc r = true →
        (parse_money (r.getD sc Cell.none)).isSome = true) →
      ∃ st', lnbGo bc sc l st = Except.ok st' ∧
        st'.g = st.g.or ((l.find? (lnbRelevant bc sc)).map (lnbAmt sc)) ∧
        ∀ u ∈ unitsList, alookup st'.res u =
          (alookup st.res u).or
            ((l.find? (fun r => lnbRelevant bc sc r && (buNorm bc r == u))).map
              (lnbAmt sc)) := by
  intro l
  induction l with
  | nil =>
    intro st _ _ _
    exact ⟨st, rfl, by simp, fun u _ => by simp⟩
  | cons r t ih =>
    intro st hInv1 hInv2 hp
    by_cases hall : unitsList.all (fun u => (st.res.map Prod.fst).contains u) = true
    · refine ⟨st, by rw [lnbGo, if_pos hall], ?_, ?_⟩
      · have hne : st.res ≠ [] := by
          have harl : ("arlington" : String) ∈ unitsList := by decide
          have hc := List.all_eq_true.mp hall "arlington" harl
          intro he
          rw [he] at hc
          simp at hc
        rcases Option.isSome_iff_exists.mp (hInv2 hne) with ⟨gv, hgv⟩
        rw [hgv, Option.or_some]
      · intro u hu
        have hmem : u ∈ st.res.map Prod.fst := by
          have := List.all_eq_true.mp hall u hu
          simpa using this
        rcases Option.isSome_iff_exists.mp ((alookup_isSome_iff _ _).mpr hmem) with
          ⟨v, hv⟩
        rw [hv, Option.or_some]
    · by_cases hshort : r.length ≤ max bc sc
      · have hrel : lnbRelevant bc sc r = false := by
          have : ¬ (max bc sc < r.length) := by omega
          simp [lnbRelevant, this]
        rcases ih st hInv1 hInv2
            (fun x hx => hp x (List.mem_cons_of_mem r hx)) with ⟨st', hok, hg, hres⟩
        refine ⟨st', by rw [lnbGo, if_neg hall, if_pos hshort]; exact hok, ?_, ?_⟩
        · rw [hg, List.find?_cons_of_neg t (by rw [hrel]; exact Bool.false_ne_true)]
        · intro u hu
          rw [hres u hu, List.find?_cons_of_neg t (by
            rw [hrel, Bool.false_and]
            exact Bool.false_ne_true)]
      · by_cases hblank : blankCell (r.getD sc Cell.none) = true
        · have hrel : lnbRelevant bc sc r = false := by
            rw [lnbRelevant, hblank]
            simp
          rcases ih st hInv1 hInv2
              (fun x hx => hp x (List.mem_cons_of_mem r hx)) with ⟨st', hok, hg, hres⟩
          refine ⟨st',
            by rw [lnbGo, if_neg hall, if_neg hshort, if_pos hblank]; exact hok, ?_, ?_⟩
          · rw [hg, List.find?_cons_of_neg t (by rw [hrel]; exact Bool.false_ne_true)]
          · intro u hu
            rw [hres u hu, List.find?_cons_of_neg t (by
              rw [hrel, Bool.false_and]
              exact Bool.false_ne_true)]
        · have hrel : lnbRelevant bc sc r = true := by
            rw [lnbRelevant, Bool.and_eq_true]
            constructor
            · exact decide_eq_true (by omega)
            · rw [Bool.eq_false_iff.mpr hblank]
              rfl
          rcases Option.isSome_iff_exists.mp
            (hp r (List.mem_cons_self r t) hrel) with ⟨amt, hm⟩
          have hamt : lnbAmt sc r = amt := by
            rw [lnbAmt, hm]
            rfl
          have hfind1 : (r :: t).find? (lnbRelevant bc sc) = some r :=
            List.find?_cons_of_pos t hrel
          by_cases hcond : (unitsList.contains (buNorm bc r) &&
              !(st.res.map Prod.fst).contains (buNorm bc r)) = true
          -- the head row resolves a fresh unit
          · have hInv1' : ∀ k ∈ (st.res ++ [(buNorm bc r, amt)]).map Prod.fst,
                k ∈ unitsList := by
              intro k hk
              rw [List.map_append, List.mem_append] at hk
              rcases hk with hk | hk
              · exact hInv1 k hk
              · simp at hk
                rw [hk]
                have := ((Bool.and_eq_true _ _).mp hcond).1
                simpa using this
            rcases ih ⟨some (st.g.getD amt), st.res ++ [(buNorm bc r, amt)]⟩ hInv1'
                (fun _ => rfl) (fun x hx => hp x (List.mem_cons_of_mem r hx)) with
              ⟨st', hok, hg, hres⟩
            refine ⟨st', ?_, ?_, ?_⟩
            · rw [lnbGo, if_neg hall, if_neg hshort, if_neg hblank, hm]
              show lnbGo bc sc t ⟨some (st.g.getD amt),
                if (unitsList.contains (buNorm bc r) &&
                    !(st.res.map Prod.fst).contains (buNorm bc r)) = true then
                  st.res ++ [(buNorm bc r, amt)]
                else st.res⟩ = Except.ok st'
              rw [if_pos hcond]
              exact hok
            · rw [hg, hfind1]
              show (some (st.g.getD amt)).or _ = st.g.or (some (lnbAmt sc r))
              rw [hamt, Option.or_some]
              cases st.g with
              | none => rfl
              | some gv => rfl
            · intro u hu
              rw [hres u hu]
              show (alookup (st.res ++ [(buNorm bc r, amt)]) u).or _ = _
              rw [alookup_append]
              by_cases hbuu : buNorm bc r = u
              · have hfindu : (r :: t).find?
                    (fun x => lnbRelevant bc sc x && (buNorm bc x == u)) = some r :=
                  List.find?_cons_of_pos t (by
                    rw [hrel, Bool.true_and, hbuu]
                    simp)
                rw [hfindu]
                have hnone : alookup st.res u = Option.none := by
                  rw [alookup_eq_none_iff]
                  have := ((Bool.and_eq_true _ _).mp hcond).2
                  rw [hbuu] at this
                  simpa using this
                rw [hnone]
                have hsingle : alookup [(buNorm bc r, amt)] u = some amt := by
                  show (if u = buNorm bc r then some amt else Option.none) = some amt
                  rw [if_pos hbuu.symm]
                rw [hsingle]
                show (Option.none.or (some amt)).or _ = _
                rw [Option.none_or, Option.or_some]
                show _ = Option.none.or (some (lnbAmt sc r))
                rw [hamt, Option.none_or]
              · have hfindu : (r :: t).find?
                    (fun x => lnbRelevant bc sc x && (buNorm bc x == u)) =
                      t.find? (fun x => lnbRelevant bc sc x && (buNorm bc x == u)) :=
                  List.find?_cons_of_neg t (by
                    rw [hrel, Bool.true_and]
                    simp [hbuu])
                rw [hfindu]
                have hsingle : alookup [(buNorm bc r, amt)] u = Option.none := by
                  show (if u = buNorm bc r then some amt else Option.none) = Option.none
                  rw [if_neg (fun he => hbuu he.symm)]
                rw [hsingle, Option.or_none]
          -- the head row resolves nothing new
          · rcases ih ⟨some (st.g.getD amt), st.res⟩ hInv1
                (fun _ => rfl) (fun x hx => hp x (List.mem_cons_of_mem r hx)) with
              ⟨st', hok, hg, hres⟩
            refine ⟨st', ?_, ?_, ?_⟩
            · rw [lnbGo, if_neg hall, if_neg hshort, if_neg hblank, hm]
              show lnbGo bc sc t ⟨some (st.g.getD amt),
                if (unitsList.contains (buNorm bc r) &&
                    !(st.res.map Prod.fst).contains (buNorm bc r)) = true then
                  st.res ++ [(buNorm bc r, amt)]
                else st.res⟩ = Except.ok st'
              rw [if_neg hcond]
              exact hok
            · rw [hg, hfind1]
              show (some (st.g.getD amt)).or _ = st.g.or (some (lnbAmt sc r))
              rw [hamt, Option.or_some]
              cases st.g with
              | none => rfl
              | some gv => rfl
            · intro u hu
              rw [hres u hu]
              by_cases hbuu : buNorm bc r = u
              · have hk : u ∈ st.res.map Prod.fst := by
                  by_contra hk
                  apply hcond
                  rw [hbuu, Bool.and_eq_true]
                  refine ⟨by simpa using hu, ?_⟩
                  simp
                  simpa using hk
                rcases Option.isSome_iff_exists.mp
                  ((alookup_isSome_iff _ _).mpr hk) with ⟨v, hv⟩
                rw [hv, Option.or_some, Option.or_some]
              · have hfindu : (r :: t).find?
                    (fun x => lnbRelevant bc sc x && (buNorm bc x == u)) =
                      t.find? (fun x => lnbRelevant bc sc x && (buNorm bc x == u)) :=
                  List.find?_cons_of_neg t (by
                    rw [hrel, Bool.true_and]
                    simp [hbuu])
                rw [hfindu]

/-! ### Filename-triplet lemmas -/

theorem takeDigits_sound {cs : List Char} {n v : Nat} {cs' : List Char}
    (h : takeDigits cs n = some (v, cs')) :
    ∃ g, cs = g ++ cs' ∧ g.length = n ∧ g.all Char.isDigit = true ∧
      digitsVal g = v := by
  rw [takeDigits] at h
  by_cases hc : (cs.take n).length = n ∧ (cs.take n).all Char.isDigit = true
  · rw [if_pos hc] at h
    injection h with h
    injection h with h1 h2
    exact ⟨cs.take n, by rw [← h2, List.take_append_drop], hc.1, hc.2, h1⟩
  · rw [if_neg hc] at h
    cases h

theorem takeDigits_complete (g cs' : List Char) (hdig : g.all Char.isDigit = true) :
    takeDigits (g ++ cs') g.length = some (digitsVal g, cs') := by
  rw [takeDigits, List.take_left, List.drop_left, if_pos ⟨rfl, hdig⟩]

theorem stepSep_sound {cs cs' : List Char} (h : stepSep cs = some cs') :
    ∃ c, cs = c :: cs' ∧ isTripSep c = true := by
  cases cs with
  | nil => cases h
  | cons c t =>
    rw [stepSep] at h
    by_cases hc : isTripSep c = true
    · rw [if_pos hc] at h
      injection h with h
      exact ⟨c, by rw [h], hc⟩
    · rw [if_neg hc] at h
      cases h

theorem tryLens_sound {cs : List Char} {k : Nat → List Char → Option (Nat × Nat × Nat)}
    {res : Nat × Nat × Nat} :
    ∀ {lens : List Nat}, tryLens cs lens k = some res →
      ∃ n ∈ lens, ∃ v cs', takeDigits cs n = some (v, cs') ∧ k v cs' = some res := by
  intro lens
  induction lens with
  | nil => intro h; cases h
  | cons n rest ih =>
    intro h
    rw [tryLens] at h
    rcases ht : takeDigits cs n with _ | ⟨v, cs'⟩
    · rw [ht] at h
      rcases ih h with ⟨n', hn', hw⟩
      exact ⟨n', List.mem_cons_of_mem n hn', hw⟩
    · rw [ht] at h
      have h2 : (match k v cs' with
          | some r => some r
          | Option.none => tryLens cs rest k) = some res := h
      rcases hk : k v cs' with _ | r2
      · rw [hk] at h2
        have h3 : tryLens cs rest k = some res := h2
        rcases ih h3 with ⟨n', hn', hw⟩
        exact ⟨n', List.mem_cons_of_mem n hn', hw⟩
      · rw [hk] at h2
        have h3 : (some r2 : Option (Nat × Nat × Nat)) = some res := h2
        injection h3 with h3
        exact ⟨n, List.mem_cons_self n rest, v, cs', ht, by rw [hk, h3]⟩

theorem tryLens_complete {cs : List Char}
    {k : Nat → List Char → Option (Nat × Nat × Nat)} :
    ∀ {lens : List Nat},
      (∃ n ∈ lens, ∃ v cs', takeDigits cs n = some (v, cs') ∧
        (k v cs').isSome = true) →
      (tryLens cs lens k).isSome = true := by
  intro lens
  induction lens with
  | nil =>
    rintro ⟨n, hn, _⟩
    simp at hn
  | cons n0 rest ih =>
    rintro ⟨n, hn, v, cs', ht, hk⟩
    rw [tryLens]
    rcases ht0 : takeDigits cs n0 with _ | ⟨v0, cs0'⟩
    · show (tryLens cs rest k).isSome = true
      refine ih ⟨n, ?_, v, cs', ht, hk⟩
      rcases List.mem_cons.mp hn with h0 | h0
      · rw [h0] at ht
        rw [ht0] at ht
        cases ht
      · exact h0
    · show (match k v0 cs0' with
          | some r => some r
          | Option.none => tryLens cs rest k).isSome = true
      rcases hk0 : k v0 cs0' with _ | r2
      · show (tryLens cs rest k).isSome = true
        refine ih ⟨n, ?_, v, cs', ht, hk⟩
        rcases List.mem_cons.mp hn with h0 | h0
        · rw [h0] at ht
          rw [ht0] at ht
          injection ht with ht
          injection ht with ht1 ht2
          rw [← ht1, ← ht2] at hk
          rw [hk0] at hk
          cases hk
        · exact h0
      · rfl

theorem matchTripletAt_sound {cs : List Char} {a b c : Nat}
    (h : matchTripletAt cs = some (a, b, c)) : TripletSplit 2 cs a b c := by
  rw [matchTripletAt] at h
  rcases tryLens_sound h with ⟨n1, hn1, v1, cs1, ht1, hk1⟩
  rcases hs1 : stepSep cs1 with _ | cs2
  · rw [hs1] at hk1
    cases hk1
  · rw [hs1] at hk1
    rcases tryLens_sound hk1 with ⟨n2, hn2, v2, cs3, ht2, hk2⟩
    rcases hs2 : stepSep cs3 with _ | cs4
    · rw [hs2] at hk2
      cases hk2
    · rw [hs2] at hk2
      rcases tryLens_sound hk2 with ⟨n3, hn3, v3, cs5, ht3, hk3⟩
      injection hk3 with hk3
      injection hk3 with he1 hk3
      injection hk3 with he2 he3
      rcases takeDigits_sound ht1 with ⟨g1, hg1, hl1, hd1, hv1⟩
      rcases stepSep_sound hs1 with ⟨c1, hc1, hsep1⟩
      rcases takeDigits_sound ht2 with ⟨g2, hg2, hl2, hd2, hv2⟩
      rcases stepSep_sound hs2 with ⟨c2, hc2, hsep2⟩
      rcases takeDigits_sound ht3 with ⟨g3, hg3, hl3, hd3, hv3⟩
      refine ⟨[], g1, g2, g3, cs5, c1, c2, ?_, ?_, ?_, hd1, hsep1, ?_, ?_, hd2,
        hsep2, ?_, ?_, hd3, by rw [hv1, he1], by rw [hv2, he2], by rw [hv3, he3]⟩
      · rw [List.nil_append, hg1, hc1, hg2, hc2, hg3]
      · intro he
        rw [he] at hl1
        simp at hl1
        rw [← hl1] at hn1
        simp at hn1
      · rw [hl1]
        rcases List.mem_cons.mp hn1 with h0 | h0
        · omega
        · simp at h0
          omega
      · intro he
        rw [he] at hl2
        simp at hl2
        rw [← hl2] at hn2
        simp at hn2
      · rw [hl2]
        rcases List.mem_cons.mp hn2 with h0 | h0
        · omega
        · simp at h0
          omega
      · intro he
        rw [he] at hl3
        simp at hl3
        rw [← hl3] at hn3
        simp at hn3
      · rw [hl3]
        rcases List.mem_cons.mp hn3 with h0 | h0
        · omega
        · simp at h0
          omega

theorem matchTripletAt_complete {g1 g2 g3 rest : List Char} {s1 s2 : Char}
    (h1 : g1 ≠ []) (hl1 : g1.length ≤ 4) (hd1 : g1.all Char.isDigit = true)
    (hs1 : isTripSep s1 = true)
    (h2 : g2 ≠ []) (hl2 : g2.length ≤ 2) (hd2 : g2.all Char.isDigit = true)
    (hs2 : isTripSep s2 = true)
    (h3 : g3 ≠ []) (hl3 : g3.length ≤ 4) (hd3 : g3.all Char.isDigit = true) :
    (matchTripletAt (g1 ++ s1 :: (g2 ++ s2 :: (g3 ++ rest)))).isSome = true := by
  rw [matchTripletAt]
  have hmem1 : g1.length ∈ [4, 3, 2, 1] := by
    have : g1.length ≠ 0 := fun he => h1 (List.length_eq_zero.mp he)
    interval_cases h : g1.length <;> simp_all
  refine tryLens_complete ⟨g1.length, hmem1, digitsVal g1,
    s1 :: (g2 ++ s2 :: (g3 ++ rest)), takeDigits_complete g1 _ hd1, ?_⟩
  rw [stepSep, if_pos hs1]
  have hmem2 : g2.length ∈ [2, 1] := by
    have : g2.length ≠ 0 := fun he => h2 (List.length_eq_zero.mp he)
    interval_cases h : g2.length <;> simp_all
  refine tryLens_complete ⟨g2.length, hmem2, digitsVal g2,
    s2 :: (g3 ++ rest), takeDigits_complete g2 _ hd2, ?_⟩
  rw [stepSep, if_pos hs2]
  have hmem3 : g3.length ∈ [4, 3, 2, 1] := by
    have : g3.length ≠ 0 := fun he => h3 (List.length_eq_zero.mp he)
    interval_cases h : g3.length <;> simp_all
  exact tryLens_complete ⟨g3.length, hmem3, digitsVal g3, rest,
    takeDigits_complete g3 _ hd3, rfl⟩

theorem searchTriplet_complete :
    ∀ (cs : List Char) {a b c : Nat}, TripletSplit 2 cs a b c →
      (searchTriplet cs).isSome = true := by
  intro cs
  induction cs with
  | nil =>
    rintro a b c ⟨p, g1, g2, g3, rest, s1, s2, hsplit, hg1, _⟩
    rcases List.append_eq_nil.mp hsplit.symm with ⟨hpg, _⟩
    rcases List.append_eq_nil.mp hpg with ⟨_, hg⟩
    exact absurd hg hg1
  | cons ch t ih =>
    rintro a b c ⟨p, g1, g2, g3, rest, s1, s2, hsplit, hprops⟩
    rw [searchTriplet]
    rcases hm : matchTripletAt (ch :: t) with _ | r
    · cases p with
      | nil =>
        exfalso
        obtain ⟨hg1, hl1, hd1, hs1, hg2, hl2, hd2, hs2, hg3, hl3, hd3, _⟩ := hprops
        rw [List.nil_append] at hsplit
        rw [hsplit] at hm
        have hc := @matchTripletAt_complete g1 g2 g3 rest s1 s2 hg1 hl1 hd1 hs1 hg2 hl2 hd2 hs2 hg3 hl3 hd3
        rw [hm] at hc
        cases hc
      | cons pc pt =>
        rw [List.cons_append, List.cons_append] at hsplit
        injection hsplit with hhead htail
        exact ih ⟨pt, g1, g2, g3, rest, s1, s2, htail, hprops⟩
    · rfl

theorem searchTriplet_sound :
    ∀ (cs : List Char) {a b c : Nat}, searchTriplet cs = some (a, b, c) →
      TripletSplit 2 cs a b c := by
  intro cs
  induction cs with
  | nil =>
    intro a b c h
    have hnone : searchTriplet [] = Option.none := by decide
    rw [hnone] at h
    cases h
  | cons ch t ih =>
    intro a b c h
    rw [searchTriplet] at h
    rcases hm : matchTripletAt (ch :: t) with _ | r
    · rw [hm] at h
      rcases ih h with ⟨p, g1, g2, g3, rest, s1, s2, hsplit, hprops⟩
      refine ⟨ch :: p, g1, g2, g3, rest, s1, s2, ?_, hprops⟩
      rw [List.cons_append, List.cons_append, ← hsplit]
    · rw [hm] at h
      injection h with h
      rw [h] at hm
      exact matchTripletAt_sound hm

theorem interpTriplet_ne_noTriplet (a b c : Nat) :
    interpTriplet a b c ≠ Except.error ExtractErr.noTriplet := by
  rw [interpTriplet]
  rcases mkValidDate (if 31 < a then (a, b, c) else
      (if c < 100 then 2000 + c else c, a, b)).1
      (if 31 < a then (a, b, c) else (if c < 100 then 2000 + c else c, a, b)).2.1
      (if 31 < a then (a, b, c) else (if c < 100 then 2000 + c else c, a, b)).2.2 with
    _ | dt
  · intro hcon
    injection hcon with hcon
    cases hcon
  · intro hcon
    cases hcon

/-! ### Claim theorems -/

/-- C2, counterexample: the claim says the money normalizer never raises and
that unparseable input yields `0.0`; on the text `"1.2.3"` the stripped
remainder is `"1.2.3"`, which Python's `float()` rejects, so `parse_money`
raises `ValueError` (modelled as `Option.none`) instead of returning. -/
theorem c2_money_never_raises_counterexample :
    parse_money (Cell.text "1.2.3") = Option.none := by decide

/-- C2, amended: `parse_money` accepts `None` and native numbers, strips
text to digits/minus/dot and returns `0.0` on an empty remainder or the
parsed value on a valid float literal; on a non-empty remainder that is not
a valid float literal it raises (returns no value) rather than yielding
`0.0`. -/
theorem c2_money_normalizer_amended :
    (parse_money Cell.none = some 0) ∧
    (∀ q : ℚ, parse_money (Cell.num q) = some q) ∧
    (∀ s : String,
      (stripMoney s = [] → parse_money (Cell.text s) = some 0) ∧
      (validFloat (stripMoney s) = true →
        parse_money (Cell.text s) = some (floatVal (stripMoney s))) ∧
      (stripMoney s ≠ [] → validFloat (stripMoney s) = false →
        parse_money (Cell.text s) = Option.none)) := by
  refine ⟨rfl, fun q => rfl, fun s => ⟨?_, ?_, ?_⟩⟩
  · intro h
    show (if stripMoney s = [] then some 0
      else if validFloat (stripMoney s) = true then some (floatVal (stripMoney s))
      else Option.none) = some 0
    rw [if_pos h]
  · intro h
    have hne : stripMoney s ≠ [] := by
      intro he
      rw [he] at h
      cases h
    show (if stripMoney s = [] then some 0
      else if validFloat (stripMoney s) = true then some (floatVal (stripMoney s))
      else Option.none) = some (floatVal (stripMoney s))
    rw [if_neg hne, if_pos h]
  · intro hne h
    show (if stripMoney s = [] then some 0
      else if validFloat (stripMoney s) = true then some (floatVal (stripMoney s))
      else Option.none) = Option.none
    rw [if_neg hne, if_neg (by rw [h]; exact Bool.false_ne_true)]

/-- Witness for the amended C2 at the spec's own example `"$1,234.50"`. -/
theorem c2_money_normalizer_amended_witness :
    parse_money (Cell.text "$1,234.50") = some (2469 / 2) := by
  have h := (c2_money_normalizer_amended.2.2 "$1,234.50").2.1 (by decide)
  rw [h]
  have h1 : stripMoney "$1,234.50" = ['1', '2', '3', '4', '.', '5', '0'] := by decide
  rw [h1]
  show some ((digitsVal ['1', '2', '3', '4'] : ℚ) +
    mkRat (digitsVal ['5', '0']) (10 ^ (['5', '0'] : List Char).length)) = some (2469 / 2)
  have h2 : digitsVal ['1', '2', '3', '4'] = 1234 := by decide
  have h3 : digitsVal ['5', '0'] = 50 := by decide
  have h4 : (['5', '0'] : List Char).length = 2 := by decide
  rw [h2, h3, h4]
  norm_num [mkRat]

/-- C4, counterexample: the claim says the extractor finds any run of three
numeric groups of length 1–4; on `"3_2024_5"` such a run exists
(`3`, `2024`, `5`), yet the source regex restricts the middle group to 1–2
digits, finds no triplet, and fails with the unparseable-filename error. -/
theorem c4_filename_triplet_counterexample :
    findTripletClaimed "3_2024_5" = some (3, 2024, 5) ∧
    extract_date_from_filename "3_2024_5" = Except.error ExtractErr.noTriplet := by
  constructor
  · rfl
  · rfl

/-- C4, amended: the extractor finds the first run of three numeric groups
of lengths 1–4, 1–2 and 1–4 separated by `.`, `-` or `_`; it fails with the
unparseable-filename-date error exactly when the filename is non-empty and
contains no such run (an empty filename is a separate error), and any found
triplet is disambiguated as `YYYY-MM-DD` when the first group exceeds 31
and as `MM-DD-YY(YY)` otherwise, two-digit years shifted by 2000. -/
theorem c4_filename_triplet_amended :
    ∀ (f : String),
      (extract_date_from_filename f = Except.error ExtractErr.noTriplet ↔
        (f ≠ "" ∧ ∀ a b c, ¬ TripletSplit 2 f.data a b c)) ∧
      (∀ a b c, findTriplet f = some (a, b, c) →
        TripletSplit 2 f.data a b c ∧
          extract_date_from_filename f = interpTriplet a b c) := by
  intro f
  by_cases hf : f = ""
  · constructor
    · rw [extract_date_from_filename, if_pos hf]
      constructor
      · intro h
        injection h with h
        cases h
      · rintro ⟨hne, _⟩
        exact absurd hf hne
    · intro a b c h
      rw [hf] at h
      have hn : findTriplet "" = Option.none := rfl
      rw [hn] at h
      cases h
  · rw [extract_date_from_filename, if_neg hf]
    rcases hft : findTriplet f with _ | ⟨a0, b0, c0⟩
    · constructor
      · constructor
        · intro _
          refine ⟨hf, fun a b c hsplit => ?_⟩
          have := searchTriplet_complete f.data hsplit
          rw [show searchTriplet f.data = findTriplet f from rfl, hft] at this
          cases this
        · intro _
          rfl
      · intro a b c h
        cases h
    · constructor
      · constructor
        · intro h
          exact absurd h (interpTriplet_ne_noTriplet a0 b0 c0)
        · rintro ⟨_, hnone⟩
          exact absurd (searchTriplet_sound f.data hft) (hnone a0 b0 c0)
      · intro a b c h
        injection h with h
        injection h with h1 h2
        injection h2 with h2 h3
        rw [← h1, ← h2, ← h3]
        exact ⟨searchTriplet_sound f.data hft, rfl⟩

/-- Witness for the amended C4 at the spec's example `"report_3.5.24.xlsx"`:
the triplet `(3, 5, 24)` occurs, and the extractor reads it month-first with
the two-digit year shifted, giving 2024-03-05. -/
theorem c4_filename_triplet_amended_witness :
    TripletSplit 2 ("report_3.5.24.xlsx").data 3 5 24 ∧
    extract_date_from_filename "report_3.5.24.xlsx" = interpTriplet 3 5 24 := by
  have h := (c4_filename_triplet_amended "report_3.5.24.xlsx").2 3 5 24 rfl
  exact h

/-- C7: the date-row index skips the header row, records each date-bearing
row under its normalized date with the higher row number winning on
duplicates, and skips cells that do not normalize to a date: a date maps to
row `r` exactly when `r` lies in `2..max_row`, its cell normalizes to that
date, and no later row's cell does. -/
theorem c7_date_row_index (s : Sheet) (c : Nat) (d : PDate) (r : Nat) :
    alookup (build_sheet_date_row_map_xl s c) d = some r ↔
      (2 ≤ r ∧ r ≤ s.maxRow ∧ try_parse_any_date (s.cells r c) = some d ∧
       ∀ r', r < r' → r' ≤ s.maxRow → try_parse_any_date (s.cells r' c) ≠ some d) :=
  build_map_lookup_iff s c d r

/-- Witness for C7 on the concrete sheet: 2024-03-06 sits at row 2. -/
theorem c7_date_row_index_witness :
    alookup (build_sheet_date_row_map_xl sheetW 2) ⟨2024, 3, 6⟩ = some 2 := by
  refine (c7_date_row_index sheetW 2 ⟨2024, 3, 6⟩ 2).mpr
    ⟨by decide, by decide, by decide, ?_⟩
  intro r' h1 h2
  have h3 : r' = 3 := by
    have : sheetW.maxRow = 3 := rfl
    omega
  rw [h3]
  decide

/-- C9: applying the same planned batch of cell writes twice yields the same
final cell values as applying it once, both for an arbitrary batch and for
the upcoming and completed batches in particular. -/
theorem c9_write_idempotence :
    (∀ (s : Sheet) (ws : List Write),
      applyWrites (applyWrites s ws) ws = applyWrites s ws) ∧
    (∀ (s : Sheet) (anchor : PDate) (totals : AList String (AList PDate ℚ)),
      applyWrites (apply_upcoming_to_workbook s anchor totals)
        (upcomingWrites s anchor totals) = apply_upcoming_to_workbook s anchor totals) ∧
    (∀ (s : Sheet) (fd : PDate) (g : ℚ) (bus : AList String ℚ),
      applyWrites (apply_completed_to_workbook s fd g bus)
        (completedWrites s fd g bus) = apply_completed_to_workbook s fd g bus) := by
  refine ⟨applyWrites_twice, fun s anchor totals => ?_, fun s fd g bus => ?_⟩
  · rw [apply_upcoming_to_workbook]
    exact applyWrites_twice s (upcomingWrites s anchor totals)
  · rw [apply_completed_eq_writes]
    exact applyWrites_twice s (completedWrites s fd g bus)

/-! ### Remaining claim theorems -/

theorem round2_zero : round2 0 = 0 := by norm_num [round2]

/-- C1: under the last-non-blank policy, the global value is the first
non-blank amount scanning the body from the end backward, each configured
unit's value is the first non-blank amount of a row of that unit scanning
backward, units never resolved default to 0, every scalar is rounded to
cents, and the scan stops early (ignoring all remaining rows) once every
configured unit is resolved. -/
theorem c1_last_non_blank_policy (rows : List (List Cell)) (bc sc : Nat)
    (hbc : findColIdx (rows.headD []) ["business unit"] = some bc)
    (hsc : findColIdx (rows.headD []) ["jobs subtotal", "subtotal"] = some sc)
    (hlen : 2 ≤ rows.length)
    (hp : ∀ r ∈ rows.tail, lnbRelevant bc sc r = true →
      (parse_money (r.getD sc Cell.none)).isSome = true) :
    completed_values_last_non_blank rows =
      Except.ok
        (round2 (((rows.tail.reverse.find? (lnbRelevant bc sc)).map (lnbAmt sc)).getD 0),
         unitsList.map (fun u =>
           (u, round2 (((rows.tail.reverse.find? (fun r =>
             lnbRelevant bc sc r && (buNorm bc r == u))).map (lnbAmt sc)).getD 0)))) ∧
    (∀ (l : List (List Cell)) (st : LnbSt),
      unitsList.all (fun u => (st.res.map Prod.fst).contains u) = true →
      lnbGo bc sc l st = Except.ok st) := by
  constructor
  · rw [completed_values_last_non_blank, if_neg (by omega), hbc, hsc]
    have hp2 : ∀ r ∈ rows.tail.reverse, lnbRelevant bc sc r = true →
        (parse_money (r.getD sc Cell.none)).isSome = true := by
      intro r hr
      exact hp r (List.mem_reverse.mp hr)
    rcases lnbGo_char bc sc rows.tail.reverse ⟨Option.none, []⟩
        (by intro k hk; simp at hk) (fun h => absurd rfl h) hp2 with
      ⟨st2, hok, hg, hres⟩
    have hg2 : st2.g = (rows.tail.reverse.find? (lnbRelevant bc sc)).map (lnbAmt sc) := hg
    have hmap : unitsList.map (fun u => (u, round2 ((alookup st2.res u).getD 0))) =
        unitsList.map (fun u =>
          (u, round2 (((rows.tail.reverse.find? (fun r =>
            lnbRelevant bc sc r && (buNorm bc r == u))).map (lnbAmt sc)).getD 0))) := by
      refine List.map_congr_left ?_
      intro u hu
      have h2 : alookup st2.res u = (rows.tail.reverse.find? (fun r =>
          lnbRelevant bc sc r && (buNorm bc r == u))).map (lnbAmt sc) := hres u hu
      rw [h2]
    show (match lnbGo bc sc rows.tail.reverse ⟨Option.none, []⟩ with
      | Except.error e => Except.error e
      | Except.ok st =>
        Except.ok (round2 (st.g.getD 0),
          unitsList.map (fun u => (u, round2 ((alookup st.res u).getD 0))))) = _
    rw [hok]
    show Except.ok (round2 (st2.g.getD 0),
      unitsList.map (fun u => (u, round2 ((alookup st2.res u).getD 0)))) = _
    rw [hg2, hmap]
  · exact fun l st h => lnbGo_allResolved bc sc l st h

/-- Witness for C1 on the spec scenario: amounts 10, blank, 20 for `dallas`;
scanning backward finds 20 for the global value and for `dallas`, every
other unit defaults to 0. -/
theorem c1_last_non_blank_policy_witness :
    completed_values_last_non_blank (rowsLnbHeader :: rowsLnbBody) =
      Except.ok (round2 20,
        [("arlington", round2 0), ("carrollton", round2 0), ("colleyville", round2 0),
         ("dallas", round2 20), ("denton", round2 0)]) := by
  have h := (c1_last_non_blank_policy (rowsLnbHeader :: rowsLnbBody) 0 1
    (by decide) (by decide) (by decide) (by decide)).1
  rw [h]
  rfl

/-- C3, counterexample: the claim says the anchor is the minimum date over
all rows, but the source only collects dates from rows that pass the
length and configured-business-unit guards: on `rowsCE` the earliest date
2024-01-01 sits on a row of the unconfigured unit `zzz`, and the returned
anchor is 2024-03-05. -/
theorem c3_anchor_min_all_rows_counterexample :
    (subtotal_by_date_from_rows_upcoming rowsCE).toOption.map Prod.fst =
      some ⟨2024, 3, 5⟩ ∧
    claimMinDateAllRows rowsCE = some ⟨2024, 1, 1⟩ ∧
    (⟨2024, 3, 5⟩ : PDate) ≠ ⟨2024, 1, 1⟩ :=
  ⟨rfl, by decide, by decide⟩

/-- C3, amended: for every accepted extract the anchor is the minimum of
the dates of the rows the scan accepts (long enough, configured business
unit, parseable date): it is one of those dates and a lower bound for all
of them. -/
theorem c3_anchor_min_accepted_rows_amended (rows : List (List Cell))
    (bc dc sc : Nat)
    (hbc : findColIdx (rows.headD []) ["business unit"] = some bc)
    (hdc : findColIdx (rows.headD []) ["next appt start date"] = some dc)
    (hsc : findColIdx (rows.headD []) ["jobs subtotal", "subtotal"] = some sc)
    (anchor : PDate) (totals : AList String (AList PDate ℚ))
    (hok : subtotal_by_date_from_rows_upcoming rows = Except.ok (anchor, totals)) :
    anchor ∈ rows.tail.filterMap (upDateOf bc dc sc) ∧
    ∀ d ∈ rows.tail.filterMap (upDateOf bc dc sc), PDate.ble anchor d = true := by
  rw [subtotal_by_date_from_rows_upcoming] at hok
  by_cases hlen : rows.length < 2
  · rw [if_pos hlen] at hok
    cases hok
  rw [if_neg hlen, hbc, hdc, hsc] at hok
  have hok2 : (match upFold bc dc sc rows.tail ⟨BU_MAP.map (fun p => (p.1, [])), []⟩ with
      | Except.error e => Except.error e
      | Except.ok st =>
        match st.seen with
        | [] => Except.error AggErr.noValidDates
        | d0 :: rest =>
          Except.ok (listMinD d0 rest,
            st.totals.map (fun p => (p.1, p.2.map (fun q => (q.1, round2 q.2)))))) =
      Except.ok (anchor, totals) := hok
  rcases hfold : upFold bc dc sc rows.tail ⟨BU_MAP.map (fun p => (p.1, [])), []⟩ with e | st
  · rw [hfold] at hok2
    cases hok2
  rw [hfold] at hok2
  have hok3 : (match st.seen with
      | [] => Except.error AggErr.noValidDates
      | d0 :: rest =>
        Except.ok (listMinD d0 rest,
          st.totals.map (fun p => (p.1, p.2.map (fun q => (q.1, round2 q.2)))))) =
      Except.ok (anchor, totals) := hok2
  rcases hseen : st.seen with _ | ⟨d0, rest⟩
  · rw [hseen] at hok3
    cases hok3
  rw [hseen] at hok3
  have hok4 : Except.ok ((listMinD d0 rest,
      st.totals.map (fun p => (p.1, p.2.map (fun q => (q.1, round2 q.2)))))) =
      (Except.ok (anchor, totals) : Except AggErr _) := hok3
  injection hok4 with hpair
  have h1 : listMinD d0 rest = anchor := congrArg Prod.fst hpair
  have h2 : st.seen = rows.tail.filterMap (upDateOf bc dc sc) :=
    (upFold_ok bc dc sc rows.tail _ st (by decide) hfold).2
  have hlist : d0 :: rest = rows.tail.filterMap (upDateOf bc dc sc) := by
    rw [← hseen]
    exact h2
  constructor
  · have hm : listMinD d0 rest ∈ d0 :: rest := by
      rcases listMinD_mem d0 rest with h | h
      · rw [h]
        exact List.mem_cons_self d0 rest
      · exact List.mem_cons_of_mem d0 h
    rw [h1, hlist] at hm
    exact hm
  · intro d hd
    rw [← hlist] at hd
    rw [← h1]
    rcases List.mem_cons.mp hd with h | h
    · exact listMinD_le d0 rest d (Or.inl h)
    · exact listMinD_le d0 rest d (Or.inr h)

/-- Witness for the amended C3 on `rowsCE`: the returned anchor 2024-03-05
is one of the dates the scan accepted. -/
theorem c3_anchor_min_accepted_rows_amended_witness :
    (⟨2024, 3, 5⟩ : PDate) ∈ rowsCE.tail.filterMap (upDateOf 0 1 2) :=
  (c3_anchor_min_accepted_rows_amended rowsCE 0 1 2 (by decide) (by decide)
    (by decide) ⟨2024, 3, 5⟩ tCE rfl).1

/-- C5: every write the upcoming planner emits targets a scheduled-revenue
column and never extends the sheet; a scheduled write for the global (or a
configured unit's) column sits at row `r` with value `amt` exactly when
some date `d` of the corresponding totals is strictly after the anchor and
the corresponding date index maps `d` to `r` — so dates on or before the
anchor, and dates missing from the index, produce no write at all. -/
theorem c5_anchor_boundary (s : Sheet) (anchor : PDate)
    (totals : AList String (AList PDate ℚ))
    (hkeys : totals.map Prod.fst = BU_MAP.map Prod.fst)
    (bu : String) (cols : BUCols) (hbu : (bu, cols) ∈ BU_MAP)
    (dmap : AList PDate ℚ) (hdm : alookup totals bu = some dmap) :
    (∀ w ∈ upcomingWrites s anchor totals,
      w.col = COL_SCHEDULED ∨ ∃ p ∈ BU_MAP, w.col = p.2.scheduled_col) ∧
    (apply_upcoming_to_workbook s anchor totals).maxRow = s.maxRow ∧
    (∀ r v, Write.mk r COL_SCHEDULED v ∈ upcomingWrites s anchor totals ↔
      ∃ d amt, (d, amt) ∈ globalTotalsOf totals ∧ PDate.ble d anchor = false ∧
        alookup (build_sheet_date_row_map_xl s COL_DATE) d = some r ∧
        v = Cell.num amt) ∧
    (∀ r v, Write.mk r cols.scheduled_col v ∈ upcomingWrites s anchor totals ↔
      ∃ d amt, (d, amt) ∈ dmap ∧ PDate.ble d anchor = false ∧
        alookup (build_sheet_date_row_map_xl s cols.date_col) d = some r ∧
        v = Cell.num amt) := by
  refine ⟨?_, applyWrites_maxRow s (upcomingWrites s anchor totals),
    fun r v => upw_global_mem s anchor totals r v,
    fun r v => upw_bu_mem s anchor totals hkeys bu cols hbu dmap hdm r v⟩
  intro w hw
  obtain ⟨r, c, v⟩ := w
  rcases (upw_mem_cases s anchor totals ⟨r, c, v⟩).mp hw with hg | ⟨p, hp, cols2, hcols2, hw2⟩
  · exact Or.inl ((mem_schedWrites _ _ _ _ _ _ _).mp hg).1
  · exact Or.inr ⟨(p.1, cols2), alookup_mem hcols2,
      ((mem_schedWrites _ _ _ _ _ _ _).mp hw2).1⟩

/-- Witness for C5 on the concrete sheet and totals: 2024-03-06 is strictly
after the anchor 2024-03-05 and indexed at row 2, so its global write is
emitted. -/
theorem c5_anchor_boundary_witness :
    Write.mk 2 COL_SCHEDULED (Cell.num (round2 100)) ∈
      upcomingWrites sheetW ⟨2024, 3, 5⟩ totalsW := by
  have h := (c5_anchor_boundary sheetW ⟨2024, 3, 5⟩ totalsW (by decide) "arlington"
    ⟨9, 11, 12⟩ (by decide) [(⟨2024, 3, 6⟩, 100), (⟨2024, 3, 5⟩, 40)] rfl).2.2.1
  refine (h 2 (Cell.num (round2 100))).mpr
    ⟨⟨2024, 3, 6⟩, round2 100, ?_, by decide, by decide, rfl⟩
  rw [show globalTotalsOf totalsW =
    [(⟨2024, 3, 6⟩, round2 100), (⟨2024, 3, 5⟩, round2 40)] from rfl]
  exact List.mem_cons_self _ _

/-- C6: the sequential completed application equals applying its planned
batch; restricted to the global (resp. one configured unit's) pair of
columns, that batch is exactly the pair "completed cell gets the scalar,
scheduled cell is cleared" at the indexed row when the file date is found
in the corresponding date index, and empty when it is not. -/
theorem c6_completed_pairing (s : Sheet) (fd : PDate) (g : ℚ)
    (bus : AList String ℚ) :
    apply_completed_to_workbook s fd g bus =
      applyWrites s (completedWrites s fd g bus) ∧
    (completedWrites s fd g bus).filter
        (fun w => w.col == COL_COMPLETED || w.col == COL_SCHEDULED) =
      pairWrites (alookup (build_sheet_date_row_map_xl s COL_DATE) fd)
        COL_COMPLETED COL_SCHEDULED g ∧
    ∀ q ∈ BU_MAP,
      (completedWrites s fd g bus).filter
          (fun w => w.col == q.2.completed_col || w.col == q.2.scheduled_col) =
        pairWrites (alookup (build_sheet_date_row_map_xl s q.2.date_col) fd)
          q.2.completed_col q.2.scheduled_col ((alookup bus q.1).getD 0) := by
  refine ⟨apply_completed_eq_writes s fd g bus, ?_, ?_⟩
  · rw [completedWrites, List.filter_append]
    have h1 : (pairWrites (alookup (build_sheet_date_row_map_xl s COL_DATE) fd)
        COL_COMPLETED COL_SCHEDULED g).filter
          (fun w => w.col == COL_COMPLETED || w.col == COL_SCHEDULED) =
        pairWrites (alookup (build_sheet_date_row_map_xl s COL_DATE) fd)
          COL_COMPLETED COL_SCHEDULED g := by
      rcases alookup (build_sheet_date_row_map_xl s COL_DATE) fd with _ | r
      · rfl
      · exact filter_pairWrites_in r _ _ g _ (by simp) (by simp)
    have h2 : (BU_MAP.flatMap (fun p =>
        pairWrites (alookup (build_sheet_date_row_map_xl s p.2.date_col) fd)
          p.2.completed_col p.2.scheduled_col ((alookup bus p.1).getD 0))).filter
          (fun w => w.col == COL_COMPLETED || w.col == COL_SCHEDULED) = [] := by
      rw [filter_flatMap]
      apply flatMap_nil_of
      intro p hp
      rcases BU_cols_ne_base p hp with ⟨hc1, hc2, hc3, hc4⟩
      exact filter_pairWrites_out _ _ _ _ _
        (fun r => by simp [hc1, hc2]) (fun r => by simp [hc3, hc4])
    rw [h1, h2, List.append_nil]
  · intro q hq
    rw [completedWrites, List.filter_append]
    rcases BU_cols_ne_base q hq with ⟨hb1, hb2, hb3, hb4⟩
    have h1 : (pairWrites (alookup (build_sheet_date_row_map_xl s COL_DATE) fd)
        COL_COMPLETED COL_SCHEDULED g).filter
          (fun w => w.col == q.2.completed_col || w.col == q.2.scheduled_col) = [] := by
      exact filter_pairWrites_out _ _ _ _ _
        (fun r => by simp [Ne.symm hb1, Ne.symm hb3])
        (fun r => by simp [Ne.symm hb2, Ne.symm hb4])
    have h2 : (BU_MAP.flatMap (fun p =>
        pairWrites (alookup (build_sheet_date_row_map_xl s p.2.date_col) fd)
          p.2.completed_col p.2.scheduled_col ((alookup bus p.1).getD 0))).filter
          (fun w => w.col == q.2.completed_col || w.col == q.2.scheduled_col) =
        pairWrites (alookup (build_sheet_date_row_map_xl s q.2.date_col) fd)
          q.2.completed_col q.2.scheduled_col ((alookup bus q.1).getD 0) := by
      rw [filter_flatMap]
      have hz : ∀ p ∈ BU_MAP, p ≠ q →
          (pairWrites (alookup (build_sheet_date_row_map_xl s p.2.date_col) fd)
            p.2.completed_col p.2.scheduled_col ((alookup bus p.1).getD 0)).filter
            (fun w => w.col == q.2.completed_col || w.col == q.2.scheduled_col) = [] := by
        intro p hp hne
        rcases BU_pair_cols_disjoint p hp q hq hne with ⟨hd1, hd2, hd3, hd4⟩
        exact filter_pairWrites_out _ _ _ _ _
          (fun r => by simp [hd1, hd2]) (fun r => by simp [hd3, hd4])
      rw [flatMap_single BU_nodup q hq _ hz]
      rcases alookup (build_sheet_date_row_map_xl s q.2.date_col) fd with _ | r
      · rfl
      · exact filter_pairWrites_in r _ _ _ _ (by simp) (by simp)
    rw [h1, h2, List.nil_append]

/-- C8: for every date present in the planner's global totals, the global
total is the per-date sum of the per-unit totals across all units, rounded
to cents (exact equality, within the claim's one-cent tolerance). -/
theorem c8_global_equals_unit_sum (totals : AList String (AList PDate ℚ)) (d : PDate)
    (hnd : ∀ dm ∈ totals.map Prod.snd, (dm.map Prod.fst).Nodup)
    (hd : d ∈ (globalTotalsOf totals).map Prod.fst) :
    alookup (globalTotalsOf totals) d =
      some (round2 ((totals.map (fun p => (alookup p.2 d).getD 0)).sum)) := by
  rw [alookup_globalTotalsOf, if_pos ((mem_keys_globalTotalsOf totals d).mp hd)]
  have hmap : totals.map (fun p => sumKey p.2 d) =
      totals.map (fun p => (alookup p.2 d).getD 0) := by
    refine List.map_congr_left ?_
    intro p hp
    exact sumKey_eq_alookup (hnd p.2 (List.mem_map.mpr ⟨p, hp, rfl⟩)) d
  rw [hmap]

/-- Witness for C8 on the concrete totals: on 2024-03-06 only `arlington`
contributes, 100. -/
theorem c8_global_equals_unit_sum_witness :
    alookup (globalTotalsOf totalsW) ⟨2024, 3, 6⟩ = some (round2 100) := by
  have h := c8_global_equals_unit_sum totalsW ⟨2024, 3, 6⟩ (by decide) (by decide)
  rw [h]
  have h1 : (totalsW.map (fun p => (alookup p.2 (⟨2024, 3, 6⟩ : PDate)).getD 0)).sum
      = 100 := by
    show (100 : ℚ) + (0 + (0 + (0 + (0 + 0)))) = 100
    norm_num
  rw [h1]

/-- C10: both aggregators return per-unit mappings keyed exactly by the
five configured business units, in configuration order; a unit never
appearing in the body rows is still present, with an empty date map
(upcoming) or the scalar 0 (completed). -/
theorem c10_unit_key_completeness (rows : List (List Cell)) (bc : Nat)
    (hbc : findColIdx (rows.headD []) ["business unit"] = some bc) :
    (∀ anchor totals,
      subtotal_by_date_from_rows_upcoming rows = Except.ok (anchor, totals) →
      totals.map Prod.fst = unitsList ∧
      ∀ u ∈ unitsList, (∀ r ∈ rows.tail, buNorm bc r ≠ u) →
        alookup totals u = some []) ∧
    (∀ g0 b0,
      completed_values_from_rows_by_bu_sum_jobs_subtotal rows = Except.ok (g0, b0) →
      b0.map Prod.fst = unitsList ∧
      ∀ u ∈ unitsList, (∀ r ∈ rows.tail, buNorm bc r ≠ u) →
        alookup b0 u = some 0) := by
  constructor
  · intro anchor totals hok
    rw [subtotal_by_date_from_rows_upcoming] at hok
    by_cases hlen : rows.length < 2
    · rw [if_pos hlen] at hok
      cases hok
    rw [if_neg hlen, hbc] at hok
    rcases hdc : findColIdx (rows.headD []) ["next appt start date"] with _ | dc
    · rw [hdc] at hok
      cases hok
    rw [hdc] at hok
    rcases hsc : findColIdx (rows.headD []) ["jobs subtotal", "subtotal"] with _ | sc
    · rw [hsc] at hok
      cases hok
    rw [hsc] at hok
    have hok2 : (match upFold bc dc sc rows.tail ⟨BU_MAP.map (fun p => (p.1, [])), []⟩ with
        | Except.error e => Except.error e
        | Except.ok st =>
          match st.seen with
          | [] => Except.error AggErr.noValidDates
          | d0 :: rest =>
            Except.ok (listMinD d0 rest,
              st.totals.map (fun p => (p.1, p.2.map (fun q => (q.1, round2 q.2)))))) =
        Except.ok (anchor, totals) := hok
    rcases hfold : upFold bc dc sc rows.tail ⟨BU_MAP.map (fun p => (p.1, [])), []⟩ with e | st
    · rw [hfold] at hok2
      cases hok2
    rw [hfold] at hok2
    have hok3 : (match st.seen with
        | [] => Except.error AggErr.noValidDates
        | d0 :: rest =>
          Except.ok (listMinD d0 rest,
            st.totals.map (fun p => (p.1, p.2.map (fun q => (q.1, round2 q.2)))))) =
        Except.ok (anchor, totals) := hok2
    rcases hseen : st.seen with _ | ⟨d0, rest⟩
    · rw [hseen] at hok3
      cases hok3
    rw [hseen] at hok3
    have hok4 : Except.ok ((listMinD d0 rest,
        st.totals.map (fun p => (p.1, p.2.map (fun q => (q.1, round2 q.2)))))) =
        (Except.ok (anchor, totals) : Except AggErr _) := hok3
    injection hok4 with hpair
    have ht : totals = st.totals.map (fun p => (p.1, p.2.map (fun q => (q.1, round2 q.2)))) :=
      (congrArg Prod.snd hpair).symm
    have hkeys : st.totals.map Prod.fst = unitsList :=
      (upFold_ok bc dc sc rows.tail _ st (by decide) hfold).1
    constructor
    · rw [ht, keys_map_snd, hkeys]
    · intro u hu hnever
      have h1 : alookup st.totals u =
          alookup (BU_MAP.map (fun p => (p.1, ([] : AList PDate ℚ)))) u :=
        upFold_untouched bc dc sc u rows.tail _ st hnever hfold
      have h2 : alookup (BU_MAP.map (fun p => (p.1, ([] : AList PDate ℚ)))) u =
          some [] := alookup_map_const BU_MAP [] u hu
      rw [ht, alookup_map_snd, h1, h2]
      rfl
  · intro g0 b0 hok
    rw [completed_values_from_rows_by_bu_sum_jobs_subtotal] at hok
    by_cases hlen : rows.length < 2
    · rw [if_pos hlen] at hok
      cases hok
    rw [if_neg hlen, hbc] at hok
    rcases hsc : findColIdx (rows.headD []) ["jobs subtotal", "subtotal"] with _ | sc
    · rw [hsc] at hok
      cases hok
    rw [hsc] at hok
    have hok2 : (match cFold bc sc rows.tail 0 (BU_MAP.map (fun p => (p.1, 0))) with
        | Except.error e => Except.error e
        | Except.ok (g, b) =>
          Except.ok (round2 g, b.map (fun p => (p.1, round2 p.2)))) =
        Except.ok (g0, b0) := hok
    rcases hfold : cFold bc sc rows.tail 0 (BU_MAP.map (fun p => (p.1, 0))) with e | gb
    · rw [hfold] at hok2
      cases hok2
    rw [hfold] at hok2
    obtain ⟨gs, bs⟩ := gb
    have hok3 : Except.ok ((round2 gs, bs.map (fun p => (p.1, round2 p.2)))) =
        (Except.ok (g0, b0) : Except AggErr _) := hok2
    injection hok3 with hpair
    have ht : b0 = bs.map (fun p => (p.1, round2 p.2)) := (congrArg Prod.snd hpair).symm
    have hkeys : bs.map Prod.fst = unitsList := by
      rw [cFold_ok_keys bc sc rows.tail 0 _ gs bs hfold]
      decide
    constructor
    · rw [ht, keys_map_snd, hkeys]
    · intro u hu hnever
      have h1 : alookup bs u = alookup (BU_MAP.map (fun p => (p.1, (0 : ℚ)))) u :=
        cFold_untouched bc sc u rows.tail 0 _ gs bs hnever hfold
      have h2 : alookup (BU_MAP.map (fun p => (p.1, (0 : ℚ)))) u = some 0 :=
        alookup_map_const BU_MAP 0 u hu
      rw [ht, alookup_map_snd, h1, h2]
      show some (round2 0) = some 0
      rw [round2_zero]

/-- Witness for C10 on concrete extracts: both aggregators key exactly the
five configured units and the never-mentioned `denton` gets `[]` resp. 0. -/
theorem c10_unit_key_completeness_witness :
    tCE.map Prod.fst = unitsList ∧ alookup tCE "denton" = some [] ∧
    bC10.map Prod.fst = unitsList ∧ alookup bC10 "denton" = some 0 := by
  have h1 := (c10_unit_key_completeness rowsCE 0 (by decide)).1 ⟨2024, 3, 5⟩ tCE rfl
  have h2 := (c10_unit_key_completeness rowsC10 0 (by decide)).2 (round2 (0 + 10)) bC10 rfl
  exact ⟨h1.1, h1.2 "denton" (by decide) (by decide), h2.1,
    h2.2 "denton" (by decide) (by decide)⟩

end RetailRev
